import Mathlib

/-!
# Verification of the VisuBlocks prompt/block composer

A shallow embedding, in Lean 4, of the token grammar, segment model,
rich-view renderer, sync reconstruction, drag/drop reorder engine and
context-flattening step of the VisuBlocks composer (`motion-lite.js` and
the `/api/generate` handler), together with proofs and refutations of the
specified properties.

JavaScript strings are modelled as Lean `String`s (sequences of Unicode
scalar values), JS numbers occurring in the token grammar as integers
(`Int`), and JSON scalar values (`string`, `number`, `boolean`, `null`)
as the inductive type `JVal`.  Fallible JS operations (`JSON.parse`,
`atob`) are modelled as `Option`-returning functions; a JS `try/catch`
around them becomes a `match` on the `Option`.
-/

namespace VisuBlocks

/-- JSON scalar values: the value domain of the token mini-language
`[[Block:<id> <key>=<json-literal> ...]]` (spec §3: "`value` is a JSON
scalar literal (string, number, boolean, null)").  Numbers are modelled
as integers. -/
inductive JVal where
  | jnull : JVal
  | jbool (b : Bool) : JVal
  | jnum (n : Int) : JVal
  | jstr (s : String) : JVal
deriving DecidableEq, Repr

/-- Decimal digit characters of a natural number, most significant
first, with structural fuel (any fuel above the value is enough). -/
def natDigitsAux : Nat → Nat → List Char
  | 0, _ => []
  | fuel + 1, n =>
    if n < 10 then [Char.ofNat (48 + n)]
    else natDigitsAux fuel (n / 10) ++ [Char.ofNat (48 + n % 10)]

/-- Decimal digit characters of a natural number, most significant first
(the digits `JSON.stringify` emits for a non-negative integer). -/
def natDigits (n : Nat) : List Char := natDigitsAux (n + 1) n

/-- Character list of `JSON.stringify` applied to an integer. -/
def intChars (i : Int) : List Char :=
  if i < 0 then '-' :: natDigits i.natAbs else natDigits i.toNat

/-- Lower-case hexadecimal digit for `n < 16`. -/
def hexDig (n : Nat) : Char :=
  if n < 10 then Char.ofNat (48 + n) else Char.ofNat (87 + n)

/-- `JSON.stringify` escaping of one character inside a string literal:
`"` and `\` get a backslash; control characters below `0x20` use the
short escapes `\b \t \n \f \r` where available and `\u00xx` otherwise;
all other characters pass through unescaped. -/
def escChar (c : Char) : List Char :=
  if c = '"' then ['\\', '"']
  else if c = '\\' then ['\\', '\\']
  else if c.toNat < 32 then
    if c.toNat = 8 then ['\\', 'b']
    else if c.toNat = 9 then ['\\', 't']
    else if c.toNat = 10 then ['\\', 'n']
    else if c.toNat = 12 then ['\\', 'f']
    else if c.toNat = 13 then ['\\', 'r']
    else ['\\', 'u', '0', '0', hexDig (c.toNat / 16), hexDig (c.toNat % 16)]
  else [c]

/-- `JSON.stringify` escaping of a whole character list. -/
def escString : List Char → List Char
  | [] => []
  | c :: cs => escChar c ++ escString cs

/-- `JSON.stringify` restricted to scalar values. -/
def jsonStringify : JVal → String
  | .jnull => "null"
  | .jbool true => "true"
  | .jbool false => "false"
  | .jnum i => ⟨intChars i⟩
  | .jstr s => ⟨'"' :: (escString s.data ++ ['"'])⟩

/-- Value of a decimal digit character. -/
def digitVal (c : Char) : Option Nat :=
  if 48 ≤ c.toNat ∧ c.toNat ≤ 57 then some (c.toNat - 48) else none

/-- Value of a hexadecimal digit character. -/
def hexVal (c : Char) : Option Nat :=
  if 48 ≤ c.toNat ∧ c.toNat ≤ 57 then some (c.toNat - 48)
  else if 97 ≤ c.toNat ∧ c.toNat ≤ 102 then some (c.toNat - 87)
  else if 65 ≤ c.toNat ∧ c.toNat ≤ 70 then some (c.toNat - 55)
  else none

/-- Accumulating decimal-digit parser: fails on the first non-digit. -/
def parseDigitsAux (acc : Nat) : List Char → Option Nat
  | [] => some acc
  | c :: cs =>
    match digitVal c with
    | some d => parseDigitsAux (acc * 10 + d) cs
    | none => none

/-- JSON natural-number literal: a nonempty digit run with no leading
zero (JSON.parse rejects `01`). -/
def parseNatNum (cs : List Char) : Option Nat :=
  match cs with
  | [] => none
  | c :: rest =>
    if c = '0' then (if rest = [] then some 0 else none)
    else
      match digitVal c with
      | some d => parseDigitsAux d rest
      | none => none

/-- Single-character JSON escape codes (`\"`, `\\`, `\/`, `\b`, `\f`,
`\n`, `\r`, `\t`). -/
def escCode (e : Char) : Option Char :=
  if e = '"' then some '"'
  else if e = '\\' then some '\\'
  else if e = '/' then some '/'
  else if e = 'b' then some (Char.ofNat 8)
  else if e = 'f' then some (Char.ofNat 12)
  else if e = 'n' then some '\n'
  else if e = 'r' then some (Char.ofNat 13)
  else if e = 't' then some '\t'
  else none

/-- JSON string-literal body parser: consumes characters up to the
closing quote, processing backslash escapes (`\uXXXX` included);
returns the decoded characters and the remaining input.  Unescaped
control characters are rejected, as in `JSON.parse`. -/
def parseJStr : List Char → Option (List Char × List Char)
  | [] => none
  | c :: rest =>
    if c = '"' then some ([], rest)
    else if c = '\\' then
      match rest with
      | [] => none
      | e :: r =>
        if e = 'u' then
          match r with
          | h1 :: h2 :: h3 :: h4 :: r2 =>
            match hexVal h1, hexVal h2, hexVal h3, hexVal h4 with
            | some a, some b, some c2, some d =>
              (parseJStr r2).map fun (s, t) =>
                (Char.ofNat (((a * 16 + b) * 16 + c2) * 16 + d) :: s, t)
            | _, _, _, _ => none
          | _ => none
        else
          match escCode e with
          | some ec => (parseJStr r).map fun (s, t) => (ec :: s, t)
          | none => none
    else if c.toNat < 32 then none
    else (parseJStr rest).map fun (s, t) => (c :: s, t)

/-- `JSON.parse` restricted to scalar literals, requiring the whole
input to be consumed (as `JSON.parse` does); returns `none` where
`JSON.parse` would throw.  The leading character decides the production,
exactly as in the JSON grammar. -/
def jsonParse (s : String) : Option JVal :=
  match s.data with
  | [] => none
  | c :: rest =>
    if c = '"' then
      match parseJStr rest with
      | some (str, []) => some (.jstr ⟨str⟩)
      | _ => none
    else if c = '-' then (parseNatNum rest).map fun n : Nat => .jnum (-(n : Int))
    else if c.isDigit then (parseNatNum (c :: rest)).map fun n : Nat => .jnum (n : Int)
    else if s = "null" then some .jnull
    else if s = "true" then some (.jbool true)
    else if s = "false" then some (.jbool false)
    else none

/-! ## Round trip of the JSON scalar codec -/

theorem toNat_ofNat_small (n : Nat) (h : n < 55296) : (Char.ofNat n).toNat = n := by
  have hv : n.isValidChar := Or.inl h
  simp [Char.ofNat, hv, Char.toNat, Char.ofNatAux]
  rfl

theorem char_eq_of_toNat {c d : Char} (h : c.toNat = d.toNat) : c = d := by
  apply Char.ext
  exact UInt32.toNat.inj h

theorem natDigitsAux_nonempty : ∀ fuel n, n < fuel → natDigitsAux fuel n ≠ [] := by
  intro fuel
  induction fuel with
  | zero => intro n h; omega
  | succ fuel ih =>
    intro n _
    unfold natDigitsAux
    split <;> simp

theorem natDigits_nonempty (n : Nat) : natDigits n ≠ [] :=
  natDigitsAux_nonempty (n + 1) n (by omega)

theorem natDigitsAux_head_digit : ∀ fuel n c, n < fuel →
    (natDigitsAux fuel n).head? = some c → 48 ≤ c.toNat ∧ c.toNat ≤ 57 := by
  intro fuel
  induction fuel with
  | zero => intro n c h; omega
  | succ fuel ih =>
    intro n c hn hc
    unfold natDigitsAux at hc
    split at hc
    · next h =>
      simp at hc
      subst hc
      rw [toNat_ofNat_small _ (by omega)]
      omega
    · next h =>
      have hf : n / 10 < fuel := by omega
      rw [List.head?_append_of_ne_nil _ (natDigitsAux_nonempty fuel (n / 10) hf)] at hc
      exact ih (n / 10) c hf hc

theorem natDigits_head_digit (n : Nat) :
    ∀ c, (natDigits n).head? = some c → 48 ≤ c.toNat ∧ c.toNat ≤ 57 :=
  fun c => natDigitsAux_head_digit (n + 1) n c (by omega)

theorem natDigitsAux_head_ne_zero : ∀ fuel n c, n < fuel →
    (natDigitsAux fuel n).head? = some c → n ≠ 0 → c ≠ '0' := by
  intro fuel
  induction fuel with
  | zero => intro n c h; omega
  | succ fuel ih =>
    intro n c hn hc h0
    unfold natDigitsAux at hc
    split at hc
    · next h =>
      simp at hc
      subst hc
      intro hcontra
      have := congrArg Char.toNat hcontra
      rw [toNat_ofNat_small _ (by omega)] at this
      rw [show ('0').toNat = 48 from rfl] at this
      omega
    · next h =>
      have hf : n / 10 < fuel := by omega
      rw [List.head?_append_of_ne_nil _ (natDigitsAux_nonempty fuel (n / 10) hf)] at hc
      exact ih (n / 10) c hf hc (by omega)

theorem natDigits_head_ne_zero (n : Nat) :
    ∀ c, (natDigits n).head? = some c → n ≠ 0 → c ≠ '0' :=
  fun c => natDigitsAux_head_ne_zero (n + 1) n c (by omega)

theorem parseDigitsAux_append (acc : Nat) (xs ys : List Char) :
    parseDigitsAux acc (xs ++ ys) =
      match parseDigitsAux acc xs with
      | some a => parseDigitsAux a ys
      | none => none := by
  induction xs generalizing acc with
  | nil => simp [parseDigitsAux]
  | cons c cs ih =>
    simp only [List.cons_append, parseDigitsAux]
    cases digitVal c with
    | some d => exact ih (acc * 10 + d)
    | none => rfl

theorem digitVal_digitChar (d : Nat) (hd : d < 10) :
    digitVal (Char.ofNat (48 + d)) = some d := by
  have := toNat_ofNat_small (48 + d) (by omega)
  simp [digitVal, this]
  omega

theorem parseDigitsAux_natDigitsAux : ∀ fuel n, n < fuel →
    ∀ acc, parseDigitsAux acc (natDigitsAux fuel n) =
      some (acc * 10 ^ (natDigitsAux fuel n).length + n) := by
  intro fuel
  induction fuel with
  | zero => intro n h; omega
  | succ fuel ih =>
    intro n hn acc
    unfold natDigitsAux
    split
    · next h =>
      simp [parseDigitsAux, digitVal_digitChar n h]
    · next h =>
      have hf : n / 10 < fuel := by omega
      rw [parseDigitsAux_append, ih (n / 10) hf acc]
      simp [parseDigitsAux, digitVal_digitChar (n % 10) (by omega)]
      have h10 : n = 10 * (n / 10) + n % 10 := (Nat.div_add_mod n 10).symm
      ring_nf
      omega

theorem parseDigitsAux_natDigits (n : Nat) :
    ∀ acc, parseDigitsAux acc (natDigits n) =
      some (acc * 10 ^ (natDigits n).length + n) :=
  parseDigitsAux_natDigitsAux (n + 1) n (by omega)

theorem parseNatNum_natDigits (n : Nat) : parseNatNum (natDigits n) = some n := by
  by_cases hn : n = 0
  · subst hn
    decide
  · rcases hnd : natDigits n with _ | ⟨c, rest⟩
    · exact absurd hnd (natDigits_nonempty n)
    have hhead : (natDigits n).head? = some c := by rw [hnd]; rfl
    have hne : c ≠ '0' := natDigits_head_ne_zero n c hhead hn
    have hdig := natDigits_head_digit n c hhead
    have hpd := parseDigitsAux_natDigits n 0
    rw [hnd] at hpd
    simp only [parseDigitsAux] at hpd
    have hdv : digitVal c = some (c.toNat - 48) := by simp [digitVal]; omega
    rw [hdv] at hpd
    simp only [parseNatNum, if_neg hne, hdv]
    simpa using hpd

theorem hexVal_hexDig : ∀ m, m < 16 → hexVal (hexDig m) = some m := by decide

theorem parseJStr_escString (cs : List Char) (rest : List Char) :
    parseJStr (escString cs ++ ('"' :: rest)) = some (cs, rest) := by
  induction cs with
  | nil =>
    show parseJStr ('"' :: rest) = _
    rw [parseJStr.eq_def]
    simp
  | cons c cs ih =>
    show parseJStr (escChar c ++ escString cs ++ ('"' :: rest)) = _
    rw [List.append_assoc]
    unfold escChar
    by_cases h1 : c = '"'
    · subst h1
      rw [if_pos rfl]
      rw [show (['\\', '"'] : List Char) ++ (escString cs ++ '"' :: rest)
        = '\\' :: '"' :: (escString cs ++ '"' :: rest) from rfl]
      rw [parseJStr.eq_def]
      simp [escCode, ih]
    · by_cases h2 : c = '\\'
      · subst h2
        rw [if_neg h1, if_pos rfl]
        rw [show (['\\', '\\'] : List Char) ++ (escString cs ++ '"' :: rest)
          = '\\' :: '\\' :: (escString cs ++ '"' :: rest) from rfl]
        rw [parseJStr.eq_def]
        simp [escCode, ih]
      · by_cases h3 : c.toNat < 32
        · rw [if_neg h1, if_neg h2, if_pos h3]
          by_cases hb : c.toNat = 8
          · have hc : c = Char.ofNat 8 :=
              char_eq_of_toNat (by rw [hb, toNat_ofNat_small _ (by omega)])
            rw [if_pos hb]
            rw [show (['\\', 'b'] : List Char) ++ (escString cs ++ '"' :: rest)
              = '\\' :: 'b' :: (escString cs ++ '"' :: rest) from rfl]
            rw [parseJStr.eq_def]
            simp [escCode, ih, hc]
          · by_cases ht : c.toNat = 9
            · have hc : c = '\t' := char_eq_of_toNat (by rw [ht]; rfl)
              rw [if_neg hb, if_pos ht]
              rw [show (['\\', 't'] : List Char) ++ (escString cs ++ '"' :: rest)
                = '\\' :: 't' :: (escString cs ++ '"' :: rest) from rfl]
              rw [parseJStr.eq_def]
              simp [escCode, ih, hc]
            · by_cases hn : c.toNat = 10
              · have hc : c = '\n' := char_eq_of_toNat (by rw [hn]; rfl)
                rw [if_neg hb, if_neg ht, if_pos hn]
                rw [show (['\\', 'n'] : List Char) ++ (escString cs ++ '"' :: rest)
                  = '\\' :: 'n' :: (escString cs ++ '"' :: rest) from rfl]
                rw [parseJStr.eq_def]
                simp [escCode, ih, hc]
              · by_cases hf : c.toNat = 12
                · have hc : c = Char.ofNat 12 :=
                    char_eq_of_toNat (by rw [hf, toNat_ofNat_small _ (by omega)])
                  rw [if_neg hb, if_neg ht, if_neg hn, if_pos hf]
                  rw [show (['\\', 'f'] : List Char) ++ (escString cs ++ '"' :: rest)
                    = '\\' :: 'f' :: (escString cs ++ '"' :: rest) from rfl]
                  rw [parseJStr.eq_def]
                  simp [escCode, ih, hc]
                · by_cases hr : c.toNat = 13
                  · have hc : c = Char.ofNat 13 :=
                      char_eq_of_toNat (by rw [hr, toNat_ofNat_small _ (by omega)])
                    rw [if_neg hb, if_neg ht, if_neg hn, if_neg hf, if_pos hr]
                    rw [show (['\\', 'r'] : List Char) ++ (escString cs ++ '"' :: rest)
                      = '\\' :: 'r' :: (escString cs ++ '"' :: rest) from rfl]
                    rw [parseJStr.eq_def]
                    simp [escCode, ih, hc]
                  · rw [if_neg hb, if_neg ht, if_neg hn, if_neg hf, if_neg hr]
                    rw [show (['\\', 'u', '0', '0', hexDig (c.toNat / 16),
                        hexDig (c.toNat % 16)] : List Char) ++ (escString cs ++ '"' :: rest)
                      = '\\' :: 'u' :: '0' :: '0' :: hexDig (c.toNat / 16) ::
                        hexDig (c.toNat % 16) :: (escString cs ++ '"' :: rest) from rfl]
                    rw [parseJStr.eq_def]
                    have h0 : hexVal '0' = some 0 := by decide
                    simp only [reduceIte, h0, hexVal_hexDig (c.toNat / 16) (by omega),
                      hexVal_hexDig (c.toNat % 16) (by omega), ih]
                    have hv : ((0 * 16 + 0) * 16 + c.toNat / 16) * 16 + c.toNat % 16
                        = c.toNat := by omega
                    rw [hv]
                    simp
        · rw [if_neg h1, if_neg h2, if_neg h3]
          rw [show ([c] : List Char) ++ (escString cs ++ '"' :: rest)
            = c :: (escString cs ++ '"' :: rest) from rfl]
          rw [parseJStr.eq_def]
          simp [if_neg h1, if_neg h2, if_neg h3, ih]

/-- The JSON scalar codec round trip: parsing the stringification of any
scalar value recovers the value. -/
theorem jsonParse_jsonStringify (v : JVal) : jsonParse (jsonStringify v) = some v := by
  cases v with
  | jnull => rfl
  | jbool b => cases b <;> rfl
  | jnum i =>
    by_cases hi : i < 0
    · have hs : jsonStringify (.jnum i) = ⟨'-' :: natDigits i.natAbs⟩ := by
        simp [jsonStringify, intChars, hi]
      rw [hs, jsonParse.eq_def]
      simp only [String.data]
      rw [if_pos trivial, parseNatNum_natDigits]
      exact congrArg (fun z => some (JVal.jnum z)) (by omega : -((i.natAbs : Int)) = i)
    · have hs : jsonStringify (.jnum i) = ⟨natDigits i.toNat⟩ := by
        simp [jsonStringify, intChars, hi]
      rw [hs]
      rcases hnd : natDigits i.toNat with _ | ⟨c, rest⟩
      · exact absurd hnd (natDigits_nonempty _)
      have hhead : (natDigits i.toNat).head? = some c := by rw [hnd]; rfl
      have hdig := natDigits_head_digit i.toNat c hhead
      have hq : c ≠ '"' := by
        intro h
        rw [h, show ('"').toNat = 34 from rfl] at hdig
        omega
      have hm : c ≠ '-' := by
        intro h
        rw [h, show ('-').toNat = 45 from rfl] at hdig
        omega
      have hisd : c.isDigit = true := by
        rw [Char.isDigit]
        have h0 : (48 : UInt32) ≤ c.val := by
          rw [UInt32.le_def, BitVec.le_def]
          show 48 ≤ c.toNat
          exact hdig.1
        have h9 : c.val ≤ (57 : UInt32) := by
          rw [UInt32.le_def, BitVec.le_def]
          show c.toNat ≤ 57
          exact hdig.2
        simp [h0, h9, GE.ge]
      rw [jsonParse.eq_def]
      simp only [String.data]
      rw [if_neg hq, if_neg hm, if_pos hisd, ← hnd, parseNatNum_natDigits]
      simp
      omega
  | jstr s =>
    show jsonParse ⟨'"' :: (escString s.data ++ ['"'])⟩ = _
    rw [jsonParse.eq_def]
    simp only [reduceIte, parseJStr_escString]

theorem length_dropWhile_le {α : Type} (p : α → Bool) (l : List α) :
    (l.dropWhile p).length ≤ l.length := by
  induction l with
  | nil => simp
  | cons a l ih =>
    rw [List.dropWhile_cons]
    split
    · simp
      omega
    · simp

/-! ## Words: JS `trim().split(/\s+/).filter(Boolean)` -/

/-- The ECMAScript `\s` character class (WhiteSpace ∪ LineTerminator). -/
def isJsWs (c : Char) : Bool :=
  (9 ≤ c.toNat && c.toNat ≤ 13) || c.toNat = 32 || c.toNat = 160 || c.toNat = 5760 ||
  (8192 ≤ c.toNat && c.toNat ≤ 8202) || c.toNat = 8232 || c.toNat = 8233 ||
  c.toNat = 8239 || c.toNat = 8287 || c.toNat = 12288 || c.toNat = 65279

/-- Accumulator pass for `wordsOf`: `cur` holds the reversed pending
word. -/
def wordsAux (cur : List Char) : List Char → List (List Char)
  | [] => if cur = [] then [] else [cur.reverse]
  | c :: rest =>
    if isJsWs c then
      if cur = [] then wordsAux [] rest else cur.reverse :: wordsAux [] rest
    else wordsAux (c :: cur) rest

/-- The maximal non-whitespace runs of a character list: the combined
effect of `trim()`, `split(/\s+/)` and `filter(Boolean)` on a JS
string. -/
def wordsOf (cs : List Char) : List (List Char) :=
  wordsAux [] cs

/-! ## Token parameter decoding (shared by `findTokenAt`,
`findTokenByIndex` and `extractBlocksFromPrompt`) -/

/-- One `key=value` word, as decoded by the loop body
`const eq = kv.indexOf('='); if (eq>0) { const k = kv.slice(0,eq);
let v = kv.slice(eq+1); try { params[k] = JSON.parse(v); }
catch { params[k] = v; } }`: the key is everything before the first
`=` (which must not be at position 0), the value is the JSON decode of
everything after it, falling back to the raw substring. -/
def parseKV (kv : List Char) : Option (String × JVal) :=
  match kv.findIdx? (fun c => c = '=') with
  | some eqi =>
    if eqi > 0 then
      some (⟨kv.take eqi⟩,
        match jsonParse ⟨kv.drop (eqi + 1)⟩ with
        | some j => j
        | none => .jstr ⟨kv.drop (eqi + 1)⟩)
    else none
  | none => none

/-- JS object property assignment `params[k] = v` on a record modelled
as an insertion-ordered association list: an existing key keeps its
position and gets the new value, a new key is appended. -/
def jsRecordSet (r : List (String × JVal)) (k : String) (v : JVal) :
    List (String × JVal) :=
  if r.any (fun p => p.1 = k) then r.map (fun p => if p.1 = k then (k, v) else p)
  else r ++ [(k, v)]

/-- The parameter-record decoding
`paramsStr.split(/\s+/).filter(Boolean).forEach(kv => ...)` applied to
the (already trimmed) raw parameter text of a token. -/
def parseParams (raw : String) : List (String × JVal) :=
  (wordsOf raw.data).foldl
    (fun r w => match parseKV w with | some (k, v) => jsRecordSet r k v | none => r) []

/-! ## The token grammar: regex `\[\[Block:([\w-]+)([^\]]*)\]\]` -/

/-- Characters matched by `[\w-]` (the block-id class of the token
regex): ASCII letters, digits, underscore, hyphen. -/
def isTokenIdChar (c : Char) : Bool :=
  c.isAlphanum || c = '_' || c = '-'

/-- Attempt to match the token regex `\[\[Block:([\w-]+)([^\]]*)\]\]`
anchored at the start of `cs`.  On success returns
`(id capture, rawParams capture, full match, rest of input)`.  The
greedy captures are deterministic here: `[\w-]+` takes the maximal
id-character run (which must be nonempty) and `([^\]]*)` everything up
to the first `]`, which must then be followed by a second `]`; no
backtracking alternative can succeed when this fails, since shortening
either capture leaves the position of the first `]` unchanged. -/
def matchTokenAt : List Char → Option (List Char × List Char × List Char × List Char)
  | '[' :: '[' :: 'B' :: 'l' :: 'o' :: 'c' :: 'k' :: ':' :: rest =>
    if rest.takeWhile isTokenIdChar = [] then none
    else
      match (rest.dropWhile isTokenIdChar).dropWhile (fun c => c ≠ ']') with
      | ']' :: ']' :: r2 =>
        some (rest.takeWhile isTokenIdChar,
          (rest.dropWhile isTokenIdChar).takeWhile (fun c => c ≠ ']'),
          '[' :: '[' :: 'B' :: 'l' :: 'o' :: 'c' :: 'k' :: ':' ::
            (rest.takeWhile isTokenIdChar ++
              (rest.dropWhile isTokenIdChar).takeWhile (fun c => c ≠ ']') ++
              [']', ']']),
          r2)
      | _ => none
  | _ => none

/-- A piece of a scanned string: a literal-text run or one token match
(carrying the two captures and the exact matched substring). -/
inductive Chunk where
  | text (s : List Char) : Chunk
  | token (idc prm orig : List Char) : Chunk
deriving DecidableEq, Repr

/-- Prepend a literal character to a chunk list, merging it into a
leading text run when there is one. -/
def consText (c : Char) : List Chunk → List Chunk
  | .text s :: l => .text (c :: s) :: l
  | l => .text [c] :: l

theorem matchTokenAt_append (cs i p m r : List Char)
    (h : matchTokenAt cs = some (i, p, m, r)) : m ++ r = cs ∧ 0 < m.length := by
  unfold matchTokenAt at h
  split at h
  · next rest =>
    split at h
    · simp at h
    · split at h
      · next r2 heq =>
        simp only [Option.some.injEq, Prod.mk.injEq] at h
        obtain ⟨h1, h2, h3, h4⟩ := h
        subst h1 h2 h3 h4
        refine ⟨?_, by simp⟩
        simp only [List.cons_append, List.cons.injEq, true_and]
        rw [List.append_assoc, List.append_assoc]
        rw [show ([']', ']'] ++ r2 : List Char) = ']' :: ']' :: r2 from rfl]
        rw [← heq]
        rw [List.takeWhile_append_dropWhile, List.takeWhile_append_dropWhile]
      · simp at h
  · simp at h

theorem matchTokenAt_rest_lt (cs i p m r : List Char)
    (h : matchTokenAt cs = some (i, p, m, r)) : r.length < cs.length := by
  obtain ⟨he, hm⟩ := matchTokenAt_append cs i p m r h
  have := congrArg List.length he
  simp at this
  omega

/-- Scan a string left to right for non-overlapping token-regex matches
(the shared loop `while ((m = regex.exec(text)))`): at every position
try the anchored match; on success emit a token chunk and continue after
it, otherwise the character is literal text. -/
def tokenize (cs : List Char) : List Chunk :=
  match h : matchTokenAt cs with
  | some (i, p, m, r) => .token i p m :: tokenize r
  | none =>
    match cs with
    | [] => []
    | c :: rest => consText c (tokenize rest)
termination_by cs.length
decreasing_by
  · exact matchTokenAt_rest_lt cs i p m r h
  · simp

/-- The source text a chunk stands for: literal text, or the exact
matched substring of a token. -/
def chunkOrig : Chunk → List Char
  | .text s => s
  | .token _ _ m => m

/-- Concatenation of the source text of a chunk list. -/
def concatOrig : List Chunk → List Char
  | [] => []
  | ch :: l => chunkOrig ch ++ concatOrig l

theorem concatOrig_consText (c : Char) (l : List Chunk) :
    concatOrig (consText c l) = c :: concatOrig l := by
  match l with
  | [] => rfl
  | .text s :: l => rfl
  | .token i p m :: l => rfl

/-- The scanner partitions its input: reassembling every chunk's source
text gives back the input exactly. -/
theorem concatOrig_tokenize (cs : List Char) : concatOrig (tokenize cs) = cs := by
  have key : ∀ n (cs : List Char), cs.length = n → concatOrig (tokenize cs) = cs := by
    intro n
    induction n using Nat.strong_induction_on with
    | _ n ih =>
      intro cs hL
      subst hL
      rw [tokenize.eq_def]
      split
      · next i p m r h =>
        show m ++ concatOrig (tokenize r) = cs
        rw [ih r.length (matchTokenAt_rest_lt cs i p m r h) r rfl]
        exact (matchTokenAt_append cs i p m r h).1
      · next h =>
        split
        · rfl
        · next c rest =>
          rw [concatOrig_consText, ih rest.length (by simp) rest rfl]
  exact key cs.length cs rfl

/-! ## `encodeAttr` / `decodeAttr`: base64 over UTF-8 bytes

`encodeAttr(s) = btoa(unescape(encodeURIComponent(s)))` is exactly the
base64 encoding of the UTF-8 bytes of `s`, and
`decodeAttr(s) = try { decodeURIComponent(escape(atob(s))) } catch { s }`
its inverse with a fall-through to the input on any decoding error. -/

/-- UTF-8 byte sequence of one character. -/
def utf8Bytes (c : Char) : List Nat :=
  if c.toNat < 128 then [c.toNat]
  else if c.toNat < 2048 then [192 + c.toNat / 64, 128 + c.toNat % 64]
  else if c.toNat < 65536 then
    [224 + c.toNat / 4096, 128 + c.toNat / 64 % 64, 128 + c.toNat % 64]
  else
    [240 + c.toNat / 262144, 128 + c.toNat / 4096 % 64,
      128 + c.toNat / 64 % 64, 128 + c.toNat % 64]

/-- UTF-8 byte sequence of a character list. -/
def utf8Encode : List Char → List Nat
  | [] => []
  | c :: cs => utf8Bytes c ++ utf8Encode cs

/-- Decode one UTF-8 sequence: given the lead byte and the remaining
bytes, return the decoded character and how many continuation bytes it
consumed; `none` on malformed input. -/
def utf8DecodeOne (b : Nat) (rest : List Nat) : Option (Char × Nat) :=
  if b < 128 then some (Char.ofNat b, 0)
  else if b < 192 then none
  else if b < 224 then
    match rest with
    | b1 :: _ =>
      if 128 ≤ b1 ∧ b1 < 192 then
        some (Char.ofNat ((b - 192) * 64 + (b1 - 128)), 1)
      else none
    | [] => none
  else if b < 240 then
    match rest with
    | b1 :: b2 :: _ =>
      if (128 ≤ b1 ∧ b1 < 192) ∧ (128 ≤ b2 ∧ b2 < 192) then
        some (Char.ofNat ((b - 224) * 4096 + (b1 - 128) * 64 + (b2 - 128)), 2)
      else none
    | _ => none
  else
    match rest with
    | b1 :: b2 :: b3 :: _ =>
      if (128 ≤ b1 ∧ b1 < 192) ∧ (128 ≤ b2 ∧ b2 < 192) ∧ (128 ≤ b3 ∧ b3 < 192) then
        some (Char.ofNat ((b - 240) * 262144 + (b1 - 128) * 4096 +
          (b2 - 128) * 64 + (b3 - 128)), 3)
      else none
    | _ => none

/-- UTF-8 decoder over byte lists; `none` on malformed input (where
`decodeURIComponent` would throw `URIError`). -/
def utf8Decode : List Nat → Option (List Char)
  | [] => some []
  | b :: rest =>
    match utf8DecodeOne b rest with
    | some (c, k) => (utf8Decode (rest.drop k)).map (c :: ·)
    | none => none
termination_by cs => cs.length
decreasing_by
  simp only [List.length_cons, List.length_drop]
  omega

/-- The base64 alphabet character of a 6-bit value. -/
def b64Chr (n : Nat) : Char :=
  if n < 26 then Char.ofNat (65 + n)
  else if n < 52 then Char.ofNat (97 + (n - 26))
  else if n < 62 then Char.ofNat (48 + (n - 52))
  else if n = 62 then '+'
  else '/'

/-- Index of a character in the base64 alphabet. -/
def b64Idx (c : Char) : Option Nat :=
  if 65 ≤ c.toNat ∧ c.toNat ≤ 90 then some (c.toNat - 65)
  else if 97 ≤ c.toNat ∧ c.toNat ≤ 122 then some (c.toNat - 97 + 26)
  else if 48 ≤ c.toNat ∧ c.toNat ≤ 57 then some (c.toNat - 48 + 52)
  else if c = '+' then some 62
  else if c = '/' then some 63
  else none

/-- `btoa`: base64 rendering of a byte list, with `=` padding. -/
def b64Encode : List Nat → List Char
  | b0 :: b1 :: b2 :: rest =>
    b64Chr (b0 / 4) :: b64Chr (b0 % 4 * 16 + b1 / 16) ::
      b64Chr (b1 % 16 * 4 + b2 / 64) :: b64Chr (b2 % 64) :: b64Encode rest
  | [b0, b1] => [b64Chr (b0 / 4), b64Chr (b0 % 4 * 16 + b1 / 16), b64Chr (b1 % 16 * 4), '=']
  | [b0] => [b64Chr (b0 / 4), b64Chr (b0 % 4 * 16), '=', '=']
  | [] => []

/-- `atob`: base64 decoding to a byte list; `none` where `atob`
throws. -/
def b64Decode : List Char → Option (List Nat)
  | [] => some []
  | c0 :: c1 :: c2 :: c3 :: rest =>
    match b64Idx c0, b64Idx c1 with
    | some i0, some i1 =>
      if c2 = '=' then
        if c3 = '=' ∧ rest = [] then some [i0 * 4 + i1 / 16] else none
      else
        match b64Idx c2 with
        | some i2 =>
          if c3 = '=' then
            if rest = [] then some [i0 * 4 + i1 / 16, i1 % 16 * 16 + i2 / 4] else none
          else
            match b64Idx c3 with
            | some i3 =>
              (b64Decode rest).map
                (fun tl => (i0 * 4 + i1 / 16) :: (i1 % 16 * 16 + i2 / 4) ::
                  (i2 % 4 * 64 + i3) :: tl)
            | none => none
        | none => none
    | _, _ => none
  | _ => none

/-- `encodeAttr(s) = btoa(unescape(encodeURIComponent(s)))`. -/
def encodeAttr (s : String) : String := ⟨b64Encode (utf8Encode s.data)⟩

/-- `decodeAttr(s) = try { decodeURIComponent(escape(atob(s))) }
catch { return s }`. -/
def decodeAttr (s : String) : String :=
  match b64Decode s.data with
  | none => s
  | some bytes =>
    match utf8Decode bytes with
    | some cs => ⟨cs⟩
    | none => s

theorem b64Idx_b64Chr : ∀ n, n < 64 → b64Idx (b64Chr n) = some n := by decide

theorem b64Chr_ne_eq : ∀ n, n < 64 → b64Chr n ≠ '=' := by decide

theorem utf8Bytes_lt (c : Char) : ∀ b ∈ utf8Bytes c, b < 256 := by
  have hval : c.toNat < 1114112 := by
    have h := c.valid
    rcases h with h | h
    · have : c.toNat < 55296 := h
      omega
    · exact h.2
  intro b hb
  unfold utf8Bytes at hb
  split at hb
  · simp at hb
    omega
  · split at hb
    · simp at hb
      rcases hb with hb | hb <;> omega
    · split at hb
      · simp at hb
        rcases hb with hb | hb | hb <;> omega
      · simp at hb
        rcases hb with hb | hb | hb | hb <;> omega

theorem b64Decode_cons4 (c0 c1 c2 c3 : Char) (rest : List Char) :
    b64Decode (c0 :: c1 :: c2 :: c3 :: rest) =
      (match b64Idx c0, b64Idx c1 with
      | some i0, some i1 =>
        if c2 = '=' then
          if c3 = '=' ∧ rest = [] then some [i0 * 4 + i1 / 16] else none
        else
          match b64Idx c2 with
          | some i2 =>
            if c3 = '=' then
              if rest = [] then some [i0 * 4 + i1 / 16, i1 % 16 * 16 + i2 / 4] else none
            else
              match b64Idx c3 with
              | some i3 =>
                (b64Decode rest).map
                  (fun tl => (i0 * 4 + i1 / 16) :: (i1 % 16 * 16 + i2 / 4) ::
                    (i2 % 4 * 64 + i3) :: tl)
              | none => none
          | none => none
      | _, _ => none) := rfl

theorem b64Decode_b64Encode (bs : List Nat) (hb : ∀ b ∈ bs, b < 256) :
    b64Decode (b64Encode bs) = some bs := by
  have key : ∀ n (bs : List Nat), bs.length = n → (∀ b ∈ bs, b < 256) →
      b64Decode (b64Encode bs) = some bs := by
    intro n
    induction n using Nat.strong_induction_on with
    | _ n ih =>
      intro bs hL hlt
      match bs with
      | [] => rfl
      | [b0] =>
        have h0 : b0 < 256 := hlt b0 (by simp)
        show b64Decode [b64Chr (b0 / 4), b64Chr (b0 % 4 * 16), '=', '='] = _
        rw [b64Decode_cons4, b64Idx_b64Chr (b0 / 4) (by omega),
          b64Idx_b64Chr (b0 % 4 * 16) (by omega)]
        simp
        omega
      | [b0, b1] =>
        have h0 : b0 < 256 := hlt b0 (by simp)
        have h1 : b1 < 256 := hlt b1 (by simp)
        show b64Decode [b64Chr (b0 / 4), b64Chr (b0 % 4 * 16 + b1 / 16),
          b64Chr (b1 % 16 * 4), '='] = _
        rw [b64Decode_cons4, b64Idx_b64Chr (b0 / 4) (by omega),
          b64Idx_b64Chr (b0 % 4 * 16 + b1 / 16) (by omega),
          b64Idx_b64Chr (b1 % 16 * 4) (by omega)]
        have hne : b64Chr (b1 % 16 * 4) ≠ '=' := b64Chr_ne_eq _ (by omega)
        simp [hne]
        omega
      | b0 :: b1 :: b2 :: rest =>
        have h0 : b0 < 256 := hlt b0 (by simp)
        have h1 : b1 < 256 := hlt b1 (by simp)
        have h2 : b2 < 256 := hlt b2 (by simp)
        show b64Decode (b64Chr (b0 / 4) :: b64Chr (b0 % 4 * 16 + b1 / 16) ::
          b64Chr (b1 % 16 * 4 + b2 / 64) :: b64Chr (b2 % 64) :: b64Encode rest) = _
        rw [b64Decode_cons4, b64Idx_b64Chr (b0 / 4) (by omega),
          b64Idx_b64Chr (b0 % 4 * 16 + b1 / 16) (by omega),
          b64Idx_b64Chr (b1 % 16 * 4 + b2 / 64) (by omega),
          b64Idx_b64Chr (b2 % 64) (by omega)]
        rw [ih rest.length (by simp at hL ⊢; omega) rest rfl
          (fun b hbm => hlt b (by simp [hbm]))]
        have hne2 : b64Chr (b1 % 16 * 4 + b2 / 64) ≠ '=' := b64Chr_ne_eq _ (by omega)
        have hne3 : b64Chr (b2 % 64) ≠ '=' := b64Chr_ne_eq _ (by omega)
        simp [hne2, hne3]
        omega
  exact key bs.length bs rfl hb

theorem utf8Decode_cons (b : Nat) (rest : List Nat) :
    utf8Decode (b :: rest) =
      (match utf8DecodeOne b rest with
      | some (c, k) => (utf8Decode (rest.drop k)).map (c :: ·)
      | none => none) := by
  conv_lhs => rw [utf8Decode.eq_def]

theorem utf8Decode_utf8Bytes (c : Char) (rest : List Nat) :
    utf8Decode (utf8Bytes c ++ rest) = (utf8Decode rest).map (c :: ·) := by
  have hval : c.toNat < 1114112 := by
    have h := c.valid
    rcases h with h | h
    · have : c.toNat < 55296 := h
      omega
    · exact h.2
  unfold utf8Bytes
  by_cases hA : c.toNat < 128
  · rw [if_pos hA]
    show utf8Decode (c.toNat :: rest) = _
    rw [utf8Decode_cons]
    have h1 : utf8DecodeOne c.toNat rest = some (c, 0) := by
      unfold utf8DecodeOne
      rw [if_pos hA, Char.ofNat_toNat]
    rw [h1]
    rfl
  · rw [if_neg hA]
    by_cases hB : c.toNat < 2048
    · rw [if_pos hB]
      show utf8Decode ((192 + c.toNat / 64) :: (128 + c.toNat % 64) :: rest) = _
      rw [utf8Decode_cons]
      have h1 : utf8DecodeOne (192 + c.toNat / 64) ((128 + c.toNat % 64) :: rest)
          = some (c, 1) := by
        unfold utf8DecodeOne
        rw [if_neg (by omega), if_neg (by omega), if_pos (by omega)]
        have e : (192 + c.toNat / 64 - 192) * 64 + (128 + c.toNat % 64 - 128)
            = c.toNat := by omega
        simp only [if_pos (show 128 ≤ 128 + c.toNat % 64 ∧ 128 + c.toNat % 64 < 192 by omega),
          e, Char.ofNat_toNat]
      rw [h1]
      rfl
    · rw [if_neg hB]
      by_cases hC : c.toNat < 65536
      · rw [if_pos hC]
        show utf8Decode ((224 + c.toNat / 4096) :: (128 + c.toNat / 64 % 64) ::
          (128 + c.toNat % 64) :: rest) = _
        rw [utf8Decode_cons]
        have h1 : utf8DecodeOne (224 + c.toNat / 4096)
            ((128 + c.toNat / 64 % 64) :: (128 + c.toNat % 64) :: rest) = some (c, 2) := by
          unfold utf8DecodeOne
          rw [if_neg (by omega), if_neg (by omega), if_neg (by omega), if_pos (by omega)]
          have e : (224 + c.toNat / 4096 - 224) * 4096 +
              (128 + c.toNat / 64 % 64 - 128) * 64 + (128 + c.toNat % 64 - 128)
              = c.toNat := by omega
          simp only [if_pos (show
            (128 ≤ 128 + c.toNat / 64 % 64 ∧ 128 + c.toNat / 64 % 64 < 192) ∧
            (128 ≤ 128 + c.toNat % 64 ∧ 128 + c.toNat % 64 < 192) by
              exact ⟨⟨by omega, by omega⟩, by omega, by omega⟩), e, Char.ofNat_toNat]
        rw [h1]
        rfl
      · rw [if_neg hC]
        show utf8Decode ((240 + c.toNat / 262144) :: (128 + c.toNat / 4096 % 64) ::
          (128 + c.toNat / 64 % 64) :: (128 + c.toNat % 64) :: rest) = _
        rw [utf8Decode_cons]
        have h1 : utf8DecodeOne (240 + c.toNat / 262144)
            ((128 + c.toNat / 4096 % 64) :: (128 + c.toNat / 64 % 64) ::
              (128 + c.toNat % 64) :: rest) = some (c, 3) := by
          unfold utf8DecodeOne
          rw [if_neg (by omega), if_neg (by omega), if_neg (by omega), if_neg (by omega)]
          have e : (240 + c.toNat / 262144 - 240) * 262144 +
              (128 + c.toNat / 4096 % 64 - 128) * 4096 +
              (128 + c.toNat / 64 % 64 - 128) * 64 + (128 + c.toNat % 64 - 128)
              = c.toNat := by omega
          simp only [if_pos (show
            (128 ≤ 128 + c.toNat / 4096 % 64 ∧ 128 + c.toNat / 4096 % 64 < 192) ∧
            (128 ≤ 128 + c.toNat / 64 % 64 ∧ 128 + c.toNat / 64 % 64 < 192) ∧
            (128 ≤ 128 + c.toNat % 64 ∧ 128 + c.toNat % 64 < 192) by
              exact ⟨⟨by omega, by omega⟩, ⟨by omega, by omega⟩, by omega, by omega⟩),
            e, Char.ofNat_toNat]
        rw [h1]
        rfl

theorem utf8Decode_utf8Encode (cs : List Char) :
    utf8Decode (utf8Encode cs) = some cs := by
  induction cs with
  | nil =>
    show utf8Decode [] = some []
    rw [utf8Decode.eq_def]
  | cons c cs ih =>
    show utf8Decode (utf8Bytes c ++ utf8Encode cs) = _
    rw [utf8Decode_utf8Bytes, ih]
    rfl

theorem utf8Encode_lt (cs : List Char) : ∀ b ∈ utf8Encode cs, b < 256 := by
  induction cs with
  | nil => simp [utf8Encode]
  | cons c cs ih =>
    intro b hb
    show b < 256
    rw [show utf8Encode (c :: cs) = utf8Bytes c ++ utf8Encode cs from rfl] at hb
    rcases List.mem_append.mp hb with h | h
    · exact utf8Bytes_lt c b h
    · exact ih b h

/-- `decodeAttr` inverts `encodeAttr` on every string. -/
theorem decodeAttr_encodeAttr (s : String) : decodeAttr (encodeAttr s) = s := by
  unfold decodeAttr encodeAttr
  simp only [String.data]
  rw [b64Decode_b64Encode (utf8Encode s.data) (utf8Encode_lt s.data)]
  simp only [utf8Decode_utf8Encode]

/-! ## `escapeHTML` and the browser's inverse entity decoding -/

/-- `escapeHTML`'s per-character replacement:
`s.replace(/[&<>]/g, c => ({'&':'&amp;','<':'&lt;','>':'&gt;'})[c])`. -/
def escHtmlChar (c : Char) : List Char :=
  if c = '&' then '&' :: 'a' :: 'm' :: 'p' :: ';' :: []
  else if c = '<' then '&' :: 'l' :: 't' :: ';' :: []
  else if c = '>' then '&' :: 'g' :: 't' :: ';' :: []
  else [c]

/-- `escapeHTML` over a character list. -/
def escapeHTML : List Char → List Char
  | [] => []
  | c :: cs => escHtmlChar c ++ escapeHTML cs

/-- The browser's decoding of character data when parsing `innerHTML`
back into a DOM text node, restricted to the three entities the escaper
emits (`&amp;`, `&lt;`, `&gt;`); any other character is literal. -/
def htmlUnescape (cs : List Char) : List Char :=
  match cs with
  | [] => []
  | c :: rest =>
    if c = '&' ∧ rest.take 4 = ['a', 'm', 'p', ';'] then '&' :: htmlUnescape (rest.drop 4)
    else if c = '&' ∧ rest.take 3 = ['l', 't', ';'] then '<' :: htmlUnescape (rest.drop 3)
    else if c = '&' ∧ rest.take 3 = ['g', 't', ';'] then '>' :: htmlUnescape (rest.drop 3)
    else c :: htmlUnescape rest
termination_by cs.length
decreasing_by
  all_goals simp only [List.length_cons, List.length_drop]
  all_goals omega

theorem htmlUnescape_cons (c : Char) (rest : List Char) :
    htmlUnescape (c :: rest) =
      (if c = '&' ∧ rest.take 4 = ['a', 'm', 'p', ';'] then
        '&' :: htmlUnescape (rest.drop 4)
      else if c = '&' ∧ rest.take 3 = ['l', 't', ';'] then '<' :: htmlUnescape (rest.drop 3)
      else if c = '&' ∧ rest.take 3 = ['g', 't', ';'] then '>' :: htmlUnescape (rest.drop 3)
      else c :: htmlUnescape rest) := by
  conv_lhs => rw [htmlUnescape.eq_def]

theorem htmlUnescape_escapeHTML (cs : List Char) :
    htmlUnescape (escapeHTML cs) = cs := by
  induction cs with
  | nil => rw [show escapeHTML [] = [] from rfl, htmlUnescape.eq_def]
  | cons c cs ih =>
    show htmlUnescape (escHtmlChar c ++ escapeHTML cs) = _
    unfold escHtmlChar
    by_cases h1 : c = '&'
    · rw [if_pos h1]
      show htmlUnescape ('&' :: ('a' :: 'm' :: 'p' :: ';' :: escapeHTML cs)) = _
      rw [htmlUnescape_cons, if_pos ⟨rfl, rfl⟩]
      rw [show ('a' :: 'm' :: 'p' :: ';' :: escapeHTML cs).drop 4 = escapeHTML cs from rfl]
      rw [ih, h1]
    · rw [if_neg h1]
      by_cases h2 : c = '<'
      · rw [if_pos h2]
        show htmlUnescape ('&' :: ('l' :: 't' :: ';' :: escapeHTML cs)) = _
        rw [htmlUnescape_cons]
        rw [if_neg (by
          intro hcon
          have := hcon.2
          rcases hesc : escapeHTML cs with _ | ⟨e, es⟩ <;> simp [hesc] at this)]
        rw [if_pos ⟨rfl, rfl⟩]
        rw [show ('l' :: 't' :: ';' :: escapeHTML cs).drop 3 = escapeHTML cs from rfl]
        rw [ih, h2]
      · rw [if_neg h2]
        by_cases h3 : c = '>'
        · rw [if_pos h3]
          show htmlUnescape ('&' :: ('g' :: 't' :: ';' :: escapeHTML cs)) = _
          rw [htmlUnescape_cons]
          rw [if_neg (by
            intro hcon
            have := hcon.2
            rcases hesc : escapeHTML cs with _ | ⟨e, es⟩ <;> simp [hesc] at this)]
          rw [if_neg (by
            intro hcon
            have := hcon.2
            simp at this)]
          rw [if_pos ⟨rfl, rfl⟩]
          rw [show ('g' :: 't' :: ';' :: escapeHTML cs).drop 3 = escapeHTML cs from rfl]
          rw [ih, h3]
        · rw [if_neg h3]
          show htmlUnescape (c :: escapeHTML cs) = _
          rw [htmlUnescape_cons]
          rw [if_neg (fun hcon => h1 hcon.1), if_neg (fun hcon => h1 hcon.1),
            if_neg (fun hcon => h1 hcon.1)]
          rw [ih]

/-! ## Data model: projects, parameter definitions, block definitions -/

/-- A generated Remotion project (opaque to the composer core; carried
through block records verbatim). -/
structure Project where
  files : List (String × String)
  compositionId : String
  width : Nat
  height : Nat
  fps : Nat
  durationInFrames : Nat
deriving DecidableEq, Repr

/-- The four parameter types of a `ParamDef`. -/
inductive PType where
  | color : PType
  | text : PType
  | number : PType
  | select : PType
deriving DecidableEq, Repr

/-- A parameter definition.  `explain` is the optional natural-language
template (read as `(p as any).explain` in the app and produced by the
param service); absent fields of the JS object are `Option`s. -/
structure ParamDef where
  key : String
  label : String
  type : PType
  default : JVal
  explain : Option String
deriving DecidableEq, Repr

/-- A block definition (`BlockDef` in the source; the field `def` of a
`Block` is spelled `defn` here because `def` is a Lean keyword). -/
structure BlockDef where
  id : String
  name : String
  params : List ParamDef
  hue : Option Nat
deriving DecidableEq, Repr

/-- A stored block: its definition plus the project it snapshots. -/
structure Block where
  defn : BlockDef
  project : Project
deriving DecidableEq, Repr

/-- `blockLabelFor(id) = 'Block ' + id.slice(-4)`: fallback label for an
unresolvable block id (JS `slice(-4)` keeps the last four characters,
or the whole string when shorter). -/
def blockLabelFor (id : String) : String :=
  "Block " ++ ⟨id.data.drop (id.data.length - 4)⟩

/-! ## Rich view renderer and forward sync (`renderPromptHTML` /
`textFromEditor`)

`renderPromptHTML` produces an HTML string that is assigned to
`innerHTML`; the browser parses it back into a DOM.  The model renders
directly to the resulting DOM node list: a text part becomes a text
node whose content is the browser's entity decoding of the escaped
slice, and a token becomes the non-editable `span.block-token` carrying
`data-token-index`, `data-token` (the `encodeAttr` of the exact matched
substring) and `data-block-id`, plus its rendered label.  The
presentational attributes (the `tokenColor` style) carry no text
content and are not modelled. -/

/-- A node of the rendered editor surface. -/
inductive DomNode where
  | textNode (s : List Char) : DomNode
  | tokenSpan (dataTokenIndex : Nat) (dataToken : String) (dataBlockId : String)
      (label : String) : DomNode
deriving DecidableEq, Repr

/-- Render a chunk list, numbering tokens left to right from `i`
(`data-token-index`). -/
def renderChunks (blocks : List Block) (i : Nat) : List Chunk → List DomNode
  | [] => []
  | .text s :: rest =>
    .textNode (htmlUnescape (escapeHTML s)) :: renderChunks blocks i rest
  | .token idc _ orig :: rest =>
    .tokenSpan i (encodeAttr ⟨orig⟩) (encodeAttr ⟨idc⟩)
      (match blocks.find? (fun b => b.defn.id = (⟨idc⟩ : String)) with
        | some b => b.defn.name
        | none => blockLabelFor ⟨idc⟩) ::
      renderChunks blocks (i + 1) rest

/-- `renderPromptHTML` followed by the browser's `innerHTML` parse: the
DOM of the rendered prompt. -/
def renderPromptDOM (blocks : List Block) (text : String) : List DomNode :=
  renderChunks blocks 0 (tokenize text.data)

/-- `textFromEditor`: walk the rendered tree; a `block-token` element
contributes `decodeAttr` of its `data-token` attribute and its children
are not visited; a text node contributes its text content. -/
def textFromEditor : List DomNode → List Char
  | [] => []
  | .textNode s :: rest => s ++ textFromEditor rest
  | .tokenSpan _ d _ _ :: rest => (decodeAttr d).data ++ textFromEditor rest

theorem textFromEditor_renderChunks (blocks : List Block) (chunks : List Chunk) :
    ∀ i, textFromEditor (renderChunks blocks i chunks) = concatOrig chunks := by
  induction chunks with
  | nil => intro i; rfl
  | cons ch rest ih =>
    intro i
    cases ch with
    | text s =>
      show htmlUnescape (escapeHTML s) ++ textFromEditor (renderChunks blocks i rest) = _
      rw [htmlUnescape_escapeHTML, ih i]
      rfl
    | token idc prm orig =>
      show (decodeAttr (encodeAttr ⟨orig⟩)).data ++
        textFromEditor (renderChunks blocks (i + 1) rest) = _
      rw [decodeAttr_encodeAttr, ih (i + 1)]
      rfl

/-! ## Segment model (`PromptSeg`) and the segmented-composer operations

`uid()` draws a fresh random id; the operations that create segments
take the fresh ids as explicit arguments here. -/

/-- A prompt segment: free text or a block reference. -/
inductive Seg where
  | text (id : String) (value : String) : Seg
  | block (id : String) (blockId : String) (values : List (String × JVal))
      (contextUrl : Option String) (contextData : Option String) : Seg
deriving DecidableEq, Repr

/-- The `id` field of a segment. -/
def Seg.segId : Seg → String
  | .text i _ => i
  | .block i _ _ _ _ => i

/-- `s.type === 'text'`. -/
def Seg.isText : Seg → Bool
  | .text _ _ => true
  | .block _ _ _ _ _ => false

/-- `s.type === 'block'`. -/
def Seg.isBlock : Seg → Bool
  | .text _ _ => false
  | .block _ _ _ _ _ => true

/-- One step of `removeSeg`'s merge loop: `const last =
merged[merged.length-1]; if (last && last.type==='text' &&
s.type==='text') last.value += s.value; else merged.push(s);`. -/
def mergeStep (merged : List Seg) (s : Seg) : List Seg :=
  match merged.getLast?, s with
  | some (.text lid lval), .text _ sval => merged.dropLast ++ [.text lid (lval ++ sval)]
  | _, _ => merged ++ [s]

/-- `removeSeg`: filter out the segment with the given id, merge
adjacent text segments, and restore a single empty text segment (with a
fresh id) if the list became empty. -/
def removeSeg (segs : List Seg) (id : String) (freshId : String) : List Seg :=
  let next := segs.filter (fun s => s.segId ≠ id)
  let merged := next.foldl mergeStep []
  if merged = [] then [Seg.text freshId ""] else merged

/-- `moveSegment`: find the segment by id (no-op when absent), remove
it, decrement the target index when the source position precedes it,
and splice it back (JS `splice` clamps an out-of-range start to the
array length). -/
def moveSegment (segs : List Seg) (segId : String) (index : Nat) : List Seg :=
  match segs.findIdx? (fun s => s.segId = segId) with
  | none => segs
  | some fromIdx =>
    match segs[fromIdx]? with
    | none => segs
    | some seg =>
      let without := segs.eraseIdx fromIdx
      let tgt := if fromIdx < index then index - 1 else index
      without.insertIdx (min tgt without.length) seg

/-- The block-insertion branch of `handleDrop` (lines 413-424): splice
the new block segment at the clamped target index, ensure a text
segment precedes it, then try to ensure one follows it — the source
splices the trailing empty text at `ensureAfter + 1`, one slot later
than its own comment (`ensure a text segment exists before and after
the inserted block`) requires.  `uidB`, `uidT1`, `uidT2` stand for the
three `uid()` draws; `dummy` stands for the JS `undefined` of an
out-of-range index read (never hit on the paths the code takes). -/
def insertBlock (segs : List Seg) (targetIndex : Nat) (blockId : String)
    (values : List (String × JVal)) (uidB uidT1 uidT2 : String) : List Seg :=
  let dummy := Seg.text "" ""
  let insertAt := min targetIndex segs.length
  let next1 := segs.insertIdx insertAt (.block uidB blockId values none none)
  let next2 :=
    if insertAt = 0 ∨ ¬ (next1.getD (insertAt - 1) dummy).isText then
      next1.insertIdx insertAt (.text uidT1 "")
    else next1
  let targetSegId :=
    if (next2.getD insertAt dummy).isBlock then (next2.getD insertAt dummy).segId
    else (next2.getD (insertAt + 1) dummy).segId
  match next2.findIdx? (fun s => s.isBlock ∧ s.segId = targetSegId) with
  | some blockPos =>
    if blockPos + 1 ≥ next2.length ∨ ¬ (next2.getD (blockPos + 1) dummy).isText then
      next2.insertIdx (min (blockPos + 1 + 1) next2.length) (.text uidT2 "")
    else next2
  | none =>
    if 0 ≥ next2.length ∨ ¬ (next2.getD 0 dummy).isText then
      next2.insertIdx (min 1 next2.length) (.text uidT2 "")
    else next2

/-- Two adjacent text segments somewhere in the list (the configuration
the segment-model invariant forbids). -/
def hasAdjacentTexts : List Seg → Bool
  | .text _ _ :: .text i v :: rest => true || hasAdjacentTexts (.text i v :: rest)
  | _ :: rest => hasAdjacentTexts rest
  | [] => false

/-- The segment-model invariant of spec §3: nonempty, no two adjacent
text segments. -/
def segInvariant (segs : List Seg) : Bool :=
  !segs.isEmpty && !hasAdjacentTexts segs

/-! ## Token lookup (`findTokenByIndex` / `findTokenAt`) and token
serialization (`saveEditingToken`) -/

/-- Lookup of a key in a JS object modelled as an association list
(`values[k]`, `undefined` when absent). -/
def jsGet (values : List (String × JVal)) (k : String) : Option JVal :=
  (values.find? (fun p => p.1 = k)).map (fun p => p.2)

/-- `a ?? b`: `b` exactly when `a` is `null` or `undefined`. -/
def jsCoalesce (a : Option JVal) (b : JVal) : JVal :=
  match a with
  | some v => if v = JVal.jnull then b else v
  | none => b

/-- The `(start, end, blockId, params)` records of all token matches,
walking the chunk list with a running character offset. -/
def tokenInfosAux : List Chunk → Nat → List (Nat × Nat × String × List (String × JVal))
  | [], _ => []
  | .text s :: rest, pos => tokenInfosAux rest (pos + s.length)
  | .token idc prm orig :: rest, pos =>
    (pos, pos + orig.length, (⟨idc⟩ : String), parseParams ⟨prm⟩) ::
      tokenInfosAux rest (pos + orig.length)

/-- `findTokenByIndex(text, index)`: the `index`-th regex match of the
token pattern, with its decoded parameter record; `null` for a negative
or out-of-range index. -/
def findTokenByIndex (text : String) (index : Int) :
    Option (Nat × Nat × String × List (String × JVal)) :=
  if index < 0 then none
  else (tokenInfosAux (tokenize text.data) 0)[index.toNat]?

/-- `findTokenAt(text, pos)`: the first token match whose span contains
`pos` (inclusive on both ends). -/
def findTokenAt (text : String) (pos : Nat) :
    Option (Nat × Nat × String × List (String × JVal)) :=
  (tokenInfosAux (tokenize text.data) 0).find? (fun t => t.1 ≤ pos ∧ pos ≤ t.2.1)

/-- `Array.join(' ')`. -/
def joinSpace : List String → String
  | [] => ""
  | [s] => s
  | s :: rest => s ++ " " ++ joinSpace rest

/-- The token text emitted by `saveEditingToken`:
``const paramStr = blk.def.params.map(p => `${p.key}=${JSON.stringify(editingToken.values[p.key] ?? p.default)}`).join(' ');``
``const tokenText = `[[Block:${blk.def.id} ${paramStr}]]`;``. -/
def saveTokenText (blk : Block) (values : List (String × JVal)) : String :=
  let paramStr := joinSpace (blk.defn.params.map
    (fun p => p.key ++ "=" ++ jsonStringify (jsCoalesce (jsGet values p.key) p.default)))
  "[[Block:" ++ blk.defn.id ++ " " ++ paramStr ++ "]]"

/-! ## Context flattening (`extractBlocksFromSegments` /
`extractBlocksFromPrompt`) -/

/-- One entry of the `params` array of a flattened usage record:
`{ key, default, value }` with `value` possibly `undefined`. -/
structure UsedParam where
  key : String
  default : JVal
  value : Option JVal
deriving DecidableEq, Repr

/-- A flattened block-usage record (`used.push({...})`): the `def`
field keeps only the projected parameter list; `context` is present
only in the segment flavour. -/
structure Used where
  id : String
  name : String
  defParams : List ParamDef
  params : List UsedParam
  project : Project
  context : Option (String × String)
deriving DecidableEq, Repr

/-- The record pushed for one block segment, when its definition
resolves. -/
def usedOfSeg (blk : Block) (values : List (String × JVal))
    (ctxUrl ctxData : Option String) : Used :=
  { id := blk.defn.id
    name := blk.defn.name
    defParams := blk.defn.params.map (fun p =>
      { key := p.key, label := p.label, type := p.type, default := p.default,
        explain := p.explain })
    params := blk.defn.params.map (fun p =>
      { key := p.key, default := p.default, value := jsGet values p.key })
    project := blk.project
    context := some (ctxUrl.getD "", ctxData.getD "") }

/-- `extractBlocksFromSegments`: walk the segments, skip text segments
and block segments whose `blockId` is not in the block list
(`if (!blk) continue`), and push a resolved usage record for the
rest. -/
def extractBlocksFromSegments (segs : List Seg) (blocks : List Block) : List Used :=
  segs.foldl (fun used s =>
    match s with
    | .text _ _ => used
    | .block _ blockId values ctxUrl ctxData =>
      match blocks.find? (fun b => b.defn.id = blockId) with
      | none => used
      | some blk => used ++ [usedOfSeg blk values ctxUrl ctxData]) []

/-- The record pushed for one token match, when its id resolves. -/
def usedOfToken (blk : Block) (values : List (String × JVal)) : Used :=
  { id := blk.defn.id
    name := blk.defn.name
    defParams := blk.defn.params.map (fun p =>
      { key := p.key, label := p.label, type := p.type, default := p.default,
        explain := p.explain })
    params := blk.defn.params.map (fun p =>
      { key := p.key, default := p.default, value := jsGet values p.key })
    project := blk.project
    context := none }

/-- `extractBlocksFromPrompt`: scan the prompt for token matches, skip
ids with no matching block (`if (!blk) continue`), decode each match's
parameters and push a resolved usage record. -/
def extractBlocksFromPrompt (text : String) (blocks : List Block) : List Used :=
  (tokenize text.data).foldl (fun used ch =>
    match ch with
    | .text _ => used
    | .token idc prm _ =>
      match blocks.find? (fun b => b.defn.id = (⟨idc⟩ : String)) with
      | none => used
      | some blk => used ++ [usedOfToken blk (parseParams ⟨prm⟩)]) []

/-- Specification-side resolver for one segment: what
`extractBlocksFromSegments` contributes for it. -/
def resolveSeg (blocks : List Block) (s : Seg) : Option Used :=
  match s with
  | .text _ _ => none
  | .block _ blockId values ctxUrl ctxData =>
    (blocks.find? (fun b => b.defn.id = blockId)).map
      (fun blk => usedOfSeg blk values ctxUrl ctxData)

/-- Specification-side resolver for one chunk: what
`extractBlocksFromPrompt` contributes for it. -/
def resolveChunk (blocks : List Block) (ch : Chunk) : Option Used :=
  match ch with
  | .text _ => none
  | .token idc prm _ =>
    (blocks.find? (fun b => b.defn.id = (⟨idc⟩ : String))).map
      (fun blk => usedOfToken blk (parseParams ⟨prm⟩))

theorem extractBlocksFromSegments_eq_filterMap (segs : List Seg) (blocks : List Block) :
    extractBlocksFromSegments segs blocks = segs.filterMap (resolveSeg blocks) := by
  have key : ∀ (l : List Seg) (acc : List Used),
      l.foldl (fun used s =>
        match s with
        | .text _ _ => used
        | .block _ blockId values ctxUrl ctxData =>
          match blocks.find? (fun b => b.defn.id = blockId) with
          | none => used
          | some blk => used ++ [usedOfSeg blk values ctxUrl ctxData]) acc
      = acc ++ l.filterMap (resolveSeg blocks) := by
    intro l
    induction l with
    | nil => intro acc; simp
    | cons s rest ih =>
      intro acc
      cases s with
      | text i v => simp [List.foldl_cons, resolveSeg, ih]
      | block i bid vals cu cd =>
        cases hf : blocks.find? (fun b => b.defn.id = bid) with
        | none => simp [List.foldl_cons, resolveSeg, hf, ih]
        | some blk => simp [List.foldl_cons, resolveSeg, hf, ih]
  exact key segs []

theorem extractBlocksFromPrompt_eq_filterMap (text : String) (blocks : List Block) :
    extractBlocksFromPrompt text blocks = (tokenize text.data).filterMap (resolveChunk blocks) := by
  have key : ∀ (l : List Chunk) (acc : List Used),
      l.foldl (fun used ch =>
        match ch with
        | .text _ => used
        | .token idc prm _ =>
          match blocks.find? (fun b => b.defn.id = (⟨idc⟩ : String)) with
          | none => used
          | some blk => used ++ [usedOfToken blk (parseParams ⟨prm⟩)]) acc
      = acc ++ l.filterMap (resolveChunk blocks) := by
    intro l
    induction l with
    | nil => intro acc; simp
    | cons ch rest ih =>
      intro acc
      cases ch with
      | text s => simp [List.foldl_cons, resolveChunk, ih]
      | token idc prm orig =>
        cases hf : blocks.find? (fun b => b.defn.id = (⟨idc⟩ : String)) with
        | none => simp [List.foldl_cons, resolveChunk, hf, ih]
        | some blk => simp [List.foldl_cons, resolveChunk, hf, ih]
  exact key (tokenize text.data) []

/-! ## Explain-template rendering (`blocksCtx` in `/api/generate`)

`tpl.replace('{value}', JSON.stringify(v))` uses ECMAScript
`String.prototype.replace` with a string pattern: only the first
occurrence is replaced, and `$`-sequences in the replacement are
substitution patterns (`$$` a dollar, `$&` the matched substring,
`` $` `` the preceding portion, `$'` the following portion; with a
string pattern there are no capture groups, so `$<digits>` stays
literal). -/

/-- ECMAScript `GetSubstitution` restricted to a string pattern:
expand the `$`-sequences of the replacement text.  The backquote and
quote characters are written as `Char.ofNat 96` and `Char.ofNat 39`. -/
def getSubstitution (matched pre post : List Char) : List Char → List Char
  | [] => []
  | c :: rest =>
    if c = '$' then
      match rest with
      | [] => ['$']
      | c2 :: r =>
        if c2 = '$' then '$' :: getSubstitution matched pre post r
        else if c2 = '&' then matched ++ getSubstitution matched pre post r
        else if c2 = Char.ofNat 96 then pre ++ getSubstitution matched pre post r
        else if c2 = Char.ofNat 39 then post ++ getSubstitution matched pre post r
        else '$' :: getSubstitution matched pre post (c2 :: r)
    else c :: getSubstitution matched pre post rest

/-- Split a string at the first occurrence of `pat`: `some (pre, post)`
with the input equal to `pre ++ pat ++ post`, `none` when `pat` does
not occur. -/
def splitAtFirst (cs pat : List Char) : Option (List Char × List Char) :=
  if pat.isPrefixOf cs then some ([], cs.drop pat.length)
  else
    match cs with
    | [] => none
    | c :: rest => (splitAtFirst rest pat).map (fun pr => (c :: pr.1, pr.2))

/-- `s.replace(pat, rep)` with a string pattern: replace the first
occurrence of `pat`, expanding substitution patterns in `rep`; return
`s` unchanged when `pat` does not occur. -/
def jsReplaceFirst (s pat rep : String) : String :=
  match splitAtFirst s.data pat.data with
  | none => s
  | some (pre, post) => ⟨pre ++ getSubstitution pat.data pre post rep.data ++ post⟩

/-- The effective value of one parameter in the explain rendering:
`const v = (val && (val.value != null ? val.value : val.default)) ?? defParam.default;`
(`!= null` excludes both `null` and `undefined`; `??` falls through on
both). -/
def effValue (defParam : ParamDef) (bparams : List UsedParam) : JVal :=
  match bparams.find? (fun pp => pp.key = defParam.key) with
  | none => defParam.default
  | some entry =>
    let inner : JVal :=
      match entry.value with
      | some x => if x = JVal.jnull then entry.default else x
      | none => entry.default
    if inner = JVal.jnull then defParam.default else inner

/-- One line of the `Effects:` context for a block
(`transpile.ts` lines 474-478):
`const tpl = String(defParam.explain || 'set ' + defParam.key + ' to {value}');
return tpl.replace('{value}', JSON.stringify(v));`. -/
def explainLine (defParam : ParamDef) (bparams : List UsedParam) : String :=
  let tpl : String :=
    match defParam.explain with
    | some e => if e = "" then "set " ++ defParam.key ++ " to {value}" else e
    | none => "set " ++ defParam.key ++ " to {value}"
  jsReplaceFirst tpl "{value}" (jsonStringify (effValue defParam bparams))

theorem getSubstitution_no_dollar (matched pre post : List Char) :
    ∀ rep : List Char, '$' ∉ rep → getSubstitution matched pre post rep = rep := by
  intro rep h
  induction rep with
  | nil => rfl
  | cons c rest ih =>
    have hc : ¬ c = '$' := fun hcc => h (hcc ▸ List.mem_cons_self c rest)
    have hrest : '$' ∉ rest := fun hm => h (List.mem_cons_of_mem c hm)
    show getSubstitution matched pre post (c :: rest) = _
    rw [getSubstitution.eq_def]
    simp only [if_neg hc]
    rw [ih hrest]

theorem splitAtFirst_spec (pat : List Char) (hpat : pat ≠ []) :
    ∀ pre post : List Char,
      (∀ i, i < pre.length → ¬ pat <+: (pre ++ pat ++ post).drop i) →
      splitAtFirst (pre ++ pat ++ post) pat = some (pre, post) := by
  intro pre
  induction pre with
  | nil =>
    intro post _
    rw [splitAtFirst.eq_def]
    rw [if_pos (by simp [List.isPrefixOf_iff_prefix, List.prefix_append])]
    simp
  | cons c pre ih =>
    intro post h
    rw [splitAtFirst.eq_def]
    rw [if_neg (by
      intro hpre
      exact h 0 (by simp) (by simpa [List.isPrefixOf_iff_prefix] using hpre))]
    have := ih post (fun i hi => by
      have := h (i + 1) (by simp; omega)
      simpa using this)
    simp only [List.cons_append, List.append_assoc] at this ⊢
    rw [this]
    rfl

/-! ## Lemmas for the token round trip -/

theorem takeWhile_append_all {α : Type} (p : α → Bool) (xs ys : List α)
    (h : ∀ x ∈ xs, p x = true) :
    (xs ++ ys).takeWhile p = xs ++ ys.takeWhile p := by
  induction xs with
  | nil => simp
  | cons a l ih =>
    rw [List.cons_append, List.takeWhile_cons_of_pos (h a (by simp)), ih (fun x hx => h x (by simp [hx]))]
    rfl

theorem dropWhile_append_all {α : Type} (p : α → Bool) (xs ys : List α)
    (h : ∀ x ∈ xs, p x = true) :
    (xs ++ ys).dropWhile p = ys.dropWhile p := by
  induction xs with
  | nil => simp
  | cons a l ih =>
    rw [List.cons_append, List.dropWhile_cons_of_pos (h a (by simp)), ih (fun x hx => h x (by simp [hx]))]

theorem wordsAux_chew (w : List Char) :
    ∀ (cur rest : List Char), (∀ c ∈ w, isJsWs c = false) →
      wordsAux cur (w ++ rest) = wordsAux (w.reverse ++ cur) rest := by
  induction w with
  | nil => intro cur rest _; simp
  | cons c w ih =>
    intro cur rest h
    show wordsAux cur (c :: (w ++ rest)) = _
    rw [wordsAux.eq_def]
    simp only [if_neg (by simp [h c (by simp)] : ¬ isJsWs c = true)]
    rw [ih (c :: cur) rest (fun x hx => h x (by simp [hx]))]
    simp

theorem wordsOf_word_sep (w cs : List Char) (hw : w ≠ [])
    (hnws : ∀ c ∈ w, isJsWs c = false) :
    wordsOf (w ++ ' ' :: cs) = w :: wordsOf cs := by
  show wordsAux [] (w ++ ' ' :: cs) = _
  rw [wordsAux_chew w [] (' ' :: cs) hnws]
  rw [wordsAux.eq_def]
  simp only [if_pos (by decide : isJsWs ' ' = true)]
  rw [if_neg (by simp [hw]), List.append_nil, List.reverse_reverse]
  rfl

theorem wordsOf_word (w : List Char) (hw : w ≠ [])
    (hnws : ∀ c ∈ w, isJsWs c = false) :
    wordsOf w = [w] := by
  show wordsAux [] w = _
  rw [show w = w ++ [] from (List.append_nil w).symm, wordsAux_chew w [] [] hnws]
  rw [wordsAux.eq_def]
  simp [hw]

theorem parseKV_word (k : String) (v : JVal)
    (hk : k.data ≠ []) (hkeq : ∀ c ∈ k.data, c ≠ '=') :
    parseKV (k.data ++ '=' :: (jsonStringify v).data) = some (k, v) := by
  unfold parseKV
  have hnone : k.data.findIdx? (fun c => c = '=') = none := by
    rw [List.findIdx?_eq_none_iff]
    intro x hx
    simp [hkeq x hx]
  have hfind : (k.data ++ '=' :: (jsonStringify v).data).findIdx? (fun c => c = '=')
      = some k.data.length := by
    rw [List.findIdx?_append, hnone, List.findIdx?_cons]
    simp
  rw [hfind]
  have hlen : k.data.length > 0 := List.length_pos.mpr hk
  show (if k.data.length > 0 then
      some ((⟨(k.data ++ '=' :: (jsonStringify v).data).take k.data.length⟩ : String),
        match jsonParse ⟨(k.data ++ '=' :: (jsonStringify v).data).drop (k.data.length + 1)⟩ with
        | some j => j
        | none => JVal.jstr ⟨(k.data ++ '=' :: (jsonStringify v).data).drop (k.data.length + 1)⟩)
    else none) = some (k, v)
  rw [if_pos hlen]
  have htake : (k.data ++ '=' :: (jsonStringify v).data).take k.data.length = k.data :=
    List.take_left _ _
  have hdrop : (k.data ++ '=' :: (jsonStringify v).data).drop (k.data.length + 1)
      = (jsonStringify v).data := by
    rw [show (k.data ++ '=' :: (jsonStringify v).data : List Char)
      = (k.data ++ ['=']) ++ (jsonStringify v).data from by simp]
    exact List.drop_left' (by simp)
  rw [htake, hdrop]
  rw [show (⟨(jsonStringify v).data⟩ : String) = jsonStringify v from rfl]
  rw [jsonParse_jsonStringify]

/-- `charJoinSp` is `Array.join(' ')` at the character level. -/
def charJoinSp : List (List Char) → List Char
  | [] => []
  | [w] => w
  | w :: rest => w ++ ' ' :: charJoinSp rest

theorem joinSpace_data (l : List String) :
    (joinSpace l).data = charJoinSp (l.map String.data) := by
  induction l with
  | nil => rfl
  | cons s rest ih =>
    cases rest with
    | nil => rfl
    | cons t r =>
      show (s ++ " " ++ joinSpace (t :: r)).data = s.data ++ ' ' :: charJoinSp ((t :: r).map _)
      rw [String.data_append, String.data_append, ← ih]
      simp

theorem mem_charJoinSp (ws : List (List Char)) (c : Char) (hc : c ∈ charJoinSp ws) :
    c = ' ' ∨ ∃ w ∈ ws, c ∈ w := by
  induction ws with
  | nil => simp [charJoinSp] at hc
  | cons w rest ih =>
    cases rest with
    | nil =>
      simp only [charJoinSp] at hc
      exact Or.inr ⟨w, by simp, hc⟩
    | cons t r =>
      rw [show charJoinSp (w :: t :: r) = w ++ ' ' :: charJoinSp (t :: r) from rfl] at hc
      rcases List.mem_append.mp hc with h | h
      · exact Or.inr ⟨w, by simp, h⟩
      · rcases List.mem_cons.mp h with h | h
        · exact Or.inl h
        · rcases ih h with h | ⟨w', hw', hcw'⟩
          · exact Or.inl h
          · exact Or.inr ⟨w', by simp [hw'], hcw'⟩

theorem wordsOf_space_cons (cs : List Char) : wordsOf (' ' :: cs) = wordsOf cs := by
  show wordsAux [] (' ' :: cs) = wordsAux [] cs
  rw [wordsAux.eq_def]
  simp [(by decide : isJsWs ' ' = true)]

theorem wordsOf_charJoinSp (ws : List (List Char))
    (h : ∀ w ∈ ws, w ≠ [] ∧ ∀ c ∈ w, isJsWs c = false) :
    wordsOf (charJoinSp ws) = ws := by
  induction ws with
  | nil => rfl
  | cons w rest ih =>
    cases rest with
    | nil =>
      show wordsOf w = [w]
      exact wordsOf_word w (h w (by simp)).1 (h w (by simp)).2
    | cons t r =>
      rw [show charJoinSp (w :: t :: r) = w ++ ' ' :: charJoinSp (t :: r) from rfl]
      rw [wordsOf_word_sep w _ (h w (by simp)).1 (h w (by simp)).2]
      rw [ih (fun w' hw' => h w' (by simp [hw']))]

theorem foldl_parse_words (ws : List (List Char)) :
    ∀ (ps : List (String × JVal)) (acc : List (String × JVal)),
      List.Forall₂ (fun w p => parseKV w = some p) ws ps →
      (ps.map Prod.fst).Nodup →
      (∀ p ∈ ps, ∀ q ∈ acc, ¬ q.1 = p.1) →
      ws.foldl (fun r w =>
        match parseKV w with | some (k, v) => jsRecordSet r k v | none => r) acc
        = acc ++ ps := by
  induction ws with
  | nil =>
    intro ps acc h _ _
    cases h
    simp
  | cons w ws ih =>
    intro ps acc h hnod hdis
    cases h with
    | cons hw hrest =>
      next p ps' =>
      obtain ⟨k1, v1⟩ := p
      rw [List.foldl_cons, hw]
      rw [show (match some (k1, v1) with
          | some (k, v) => jsRecordSet acc k v
          | none => acc) = jsRecordSet acc k1 v1 from rfl]
      have hany : acc.any (fun q => q.1 = k1) = false := by
        rw [List.any_eq_false]
        intro q hq
        simpa using hdis (k1, v1) (by simp) q hq
      have hset : jsRecordSet acc k1 v1 = acc ++ [(k1, v1)] := by
        unfold jsRecordSet
        rw [if_neg (by simp [hany])]
      rw [hset]
      rw [ih ps' (acc ++ [(k1, v1)]) hrest (by simpa using hnod.of_cons) ?_]
      · simp
      · intro p' hp' q hq
        rcases List.mem_append.mp hq with hq | hq
        · exact hdis p' (by simp [hp']) q hq
        · have hq1 : q = (k1, v1) := by simpa using hq
          subst hq1
          have hnotin : k1 ∉ ps'.map Prod.fst := by
            have := hnod
            simp only [List.map_cons, List.nodup_cons] at this
            exact this.1
          intro hcon
          apply hnotin
          rw [show k1 = p'.1 from hcon]
          exact List.mem_map_of_mem Prod.fst hp'

theorem matchTokenAt_header (rest : List Char) :
    matchTokenAt ('[' :: '[' :: 'B' :: 'l' :: 'o' :: 'c' :: 'k' :: ':' :: rest)
      = (if rest.takeWhile isTokenIdChar = [] then none
        else
          match (rest.dropWhile isTokenIdChar).dropWhile (fun c => c ≠ ']') with
          | ']' :: ']' :: r2 =>
            some (rest.takeWhile isTokenIdChar,
              (rest.dropWhile isTokenIdChar).takeWhile (fun c => c ≠ ']'),
              '[' :: '[' :: 'B' :: 'l' :: 'o' :: 'c' :: 'k' :: ':' ::
                (rest.takeWhile isTokenIdChar ++
                  (rest.dropWhile isTokenIdChar).takeWhile (fun c => c ≠ ']') ++
                  [']', ']']),
              r2)
          | _ => none) := rfl

theorem matchTokenAt_serialized (idc prmc : List Char)
    (hid : idc ≠ []) (hidc : ∀ c ∈ idc, isTokenIdChar c = true)
    (hprm : ∀ c ∈ prmc, c ≠ ']') :
    matchTokenAt ('[' :: '[' :: 'B' :: 'l' :: 'o' :: 'c' :: 'k' :: ':' ::
        (idc ++ ' ' :: (prmc ++ [']', ']'])))
      = some (idc, ' ' :: prmc,
          '[' :: '[' :: 'B' :: 'l' :: 'o' :: 'c' :: 'k' :: ':' ::
            (idc ++ (' ' :: prmc) ++ [']', ']']), []) := by
  rw [matchTokenAt_header]
  have htw : (idc ++ ' ' :: (prmc ++ [']', ']'])).takeWhile isTokenIdChar = idc := by
    rw [takeWhile_append_all _ _ _ hidc, List.takeWhile_cons_of_neg (by decide)]
    simp
  have hdw : (idc ++ ' ' :: (prmc ++ [']', ']'])).dropWhile isTokenIdChar
      = ' ' :: (prmc ++ [']', ']']) := by
    rw [dropWhile_append_all _ _ _ hidc, List.dropWhile_cons_of_neg (by decide)]
  rw [htw, hdw, if_neg hid]
  have hprmAll : ∀ c ∈ ' ' :: prmc, (fun c => decide (c ≠ ']')) c = true := by
    intro c hc
    rcases List.mem_cons.mp hc with h | h
    · simp [h]
    · simp [hprm c h]
  have htw2 : ((' ' :: (prmc ++ [']', ']'])) : List Char).takeWhile (fun c => c ≠ ']')
      = ' ' :: prmc := by
    rw [show (' ' :: (prmc ++ [']', ']']) : List Char)
      = (' ' :: prmc) ++ [']', ']'] from by simp]
    rw [takeWhile_append_all _ _ _ hprmAll, List.takeWhile_cons_of_neg (by decide)]
    simp
  have hdw2 : ((' ' :: (prmc ++ [']', ']'])) : List Char).dropWhile (fun c => c ≠ ']')
      = [']', ']'] := by
    rw [show (' ' :: (prmc ++ [']', ']']) : List Char)
      = (' ' :: prmc) ++ [']', ']'] from by simp]
    rw [dropWhile_append_all _ _ _ hprmAll, List.dropWhile_cons_of_neg (by decide)]
  rw [htw2, hdw2]
  simp

theorem tokenize_nil : tokenize [] = [] := by
  rw [tokenize.eq_def]
  split
  · next i p m r h => simp [matchTokenAt] at h
  · rfl

theorem tokenize_of_match (cs i p m : List Char)
    (h : matchTokenAt cs = some (i, p, m, [])) :
    tokenize cs = [.token i p m] := by
  rw [tokenize.eq_def]
  split
  · next i' p' m' r' h' =>
    rw [h] at h'
    simp only [Option.some.injEq, Prod.mk.injEq] at h'
    obtain ⟨h1, h2, h3, h4⟩ := h'
    subst h1 h2 h3 h4
    rw [tokenize_nil]
  · next h' =>
    rw [h] at h'
    exact absurd h' (by simp)

theorem word_data (k : String) (v : JVal) :
    (k ++ "=" ++ jsonStringify v).data = k.data ++ '=' :: (jsonStringify v).data := by
  rw [String.data_append, String.data_append]
  simp

theorem forall₂_parseKV (values : List (String × JVal)) (l : List ParamDef)
    (hl : ∀ p ∈ l, p.key.data ≠ [] ∧ ∀ c ∈ p.key.data, c ≠ '=') :
    List.Forall₂ (fun w q => parseKV w = some q)
      (l.map (fun p =>
        (p.key ++ "=" ++ jsonStringify (jsCoalesce (jsGet values p.key) p.default)).data))
      (l.map (fun p => (p.key, jsCoalesce (jsGet values p.key) p.default))) := by
  induction l with
  | nil => exact List.Forall₂.nil
  | cons p rest ih =>
    simp only [List.map_cons]
    refine List.Forall₂.cons ?_ (ih (fun q hq => hl q (by simp [hq])))
    rw [word_data]
    exact parseKV_word p.key _ (hl p (by simp)).1 (hl p (by simp)).2

/-- Round trip of the token serializer against the token parser, under
the side conditions that make the whitespace-splitting, `=`-splitting
and `]]`-terminated regex able to read back what the serializer wrote:
a well-formed block id, parameter keys free of whitespace, `=` and `]`,
and effective values whose JSON rendering contains no whitespace and no
`]`. -/
theorem findTokenByIndex_saveTokenText (blk : Block) (values : List (String × JVal))
    (hid : blk.defn.id.data ≠ [])
    (hidc : ∀ c ∈ blk.defn.id.data, isTokenIdChar c = true)
    (hkeys : ∀ p ∈ blk.defn.params, p.key.data ≠ [] ∧
      ∀ c ∈ p.key.data, isJsWs c = false ∧ c ≠ '=' ∧ c ≠ ']')
    (hvals : ∀ p ∈ blk.defn.params,
      ∀ c ∈ (jsonStringify (jsCoalesce (jsGet values p.key) p.default)).data,
        isJsWs c = false ∧ c ≠ ']')
    (hnodup : (blk.defn.params.map ParamDef.key).Nodup) :
    findTokenByIndex (saveTokenText blk values) 0
      = some (0, (saveTokenText blk values).data.length, blk.defn.id,
          blk.defn.params.map (fun p => (p.key, jsCoalesce (jsGet values p.key) p.default))) := by
  have hdata : (saveTokenText blk values).data
      = '[' :: '[' :: 'B' :: 'l' :: 'o' :: 'c' :: 'k' :: ':' ::
        (blk.defn.id.data ++ ' ' ::
          ((joinSpace (blk.defn.params.map (fun p =>
            p.key ++ "=" ++ jsonStringify (jsCoalesce (jsGet values p.key) p.default)))).data
            ++ [']', ']'])) := by
    show ("[[Block:" ++ blk.defn.id ++ " " ++ _ ++ "]]").data = _
    rw [String.data_append, String.data_append, String.data_append, String.data_append]
    simp
  have hwordmem : ∀ w ∈ (blk.defn.params.map (fun p =>
      p.key ++ "=" ++ jsonStringify (jsCoalesce (jsGet values p.key) p.default))).map
        String.data, w ≠ [] ∧ ∀ c ∈ w, isJsWs c = false := by
    intro w hw
    obtain ⟨pw, hpw, hpweq⟩ := List.mem_map.mp hw
    obtain ⟨p, hp, hpeq⟩ := List.mem_map.mp hpw
    subst hpeq
    rw [word_data] at hpweq
    subst hpweq
    constructor
    · simp [(hkeys p hp).1]
    · intro c hc
      rcases List.mem_append.mp hc with h | h
      · exact ((hkeys p hp).2 c h).1
      · rcases List.mem_cons.mp h with h | h
        · subst h
          decide
        · exact (hvals p hp c h).1
  have hprm : ∀ c ∈ (joinSpace (blk.defn.params.map (fun p =>
      p.key ++ "=" ++ jsonStringify (jsCoalesce (jsGet values p.key) p.default)))).data,
      c ≠ ']' := by
    intro c hc
    rw [joinSpace_data] at hc
    rcases mem_charJoinSp _ c hc with h | ⟨w, hw, hcw⟩
    · subst h
      decide
    · obtain ⟨pw, hpw, hpweq⟩ := List.mem_map.mp hw
      obtain ⟨p, hp, hpeq⟩ := List.mem_map.mp hpw
      subst hpeq
      rw [word_data] at hpweq
      subst hpweq
      rcases List.mem_append.mp hcw with h | h
      · exact ((hkeys p hp).2 c h).2.2
      · rcases List.mem_cons.mp h with h | h
        · subst h
          decide
        · exact (hvals p hp c h).2
  have hmatch : matchTokenAt (saveTokenText blk values).data
      = some (blk.defn.id.data,
          ' ' :: (joinSpace (blk.defn.params.map (fun p =>
            p.key ++ "=" ++ jsonStringify (jsCoalesce (jsGet values p.key) p.default)))).data,
          '[' :: '[' :: 'B' :: 'l' :: 'o' :: 'c' :: 'k' :: ':' ::
            (blk.defn.id.data ++
              (' ' :: (joinSpace (blk.defn.params.map (fun p =>
                p.key ++ "=" ++ jsonStringify (jsCoalesce (jsGet values p.key) p.default)))).data)
              ++ [']', ']']),
          []) := by
    rw [hdata]
    exact matchTokenAt_serialized _ _ hid hidc hprm
  have hm : ('[' :: '[' :: 'B' :: 'l' :: 'o' :: 'c' :: 'k' :: ':' ::
      (blk.defn.id.data ++
        (' ' :: (joinSpace (blk.defn.params.map (fun p =>
          p.key ++ "=" ++ jsonStringify (jsCoalesce (jsGet values p.key) p.default)))).data)
        ++ [']', ']']) : List Char) = (saveTokenText blk values).data := by
    have := (matchTokenAt_append _ _ _ _ _ hmatch).1
    simpa using this
  have htok := tokenize_of_match _ _ _ _ hmatch
  have hparse : parseParams ⟨' ' :: (joinSpace (blk.defn.params.map (fun p =>
      p.key ++ "=" ++ jsonStringify (jsCoalesce (jsGet values p.key) p.default)))).data⟩
      = blk.defn.params.map (fun p => (p.key, jsCoalesce (jsGet values p.key) p.default)) := by
    unfold parseParams
    rw [show ((⟨' ' :: (joinSpace (blk.defn.params.map (fun p =>
      p.key ++ "=" ++ jsonStringify (jsCoalesce (jsGet values p.key) p.default)))).data⟩ :
        String)).data
      = ' ' :: (joinSpace (blk.defn.params.map (fun p =>
        p.key ++ "=" ++ jsonStringify (jsCoalesce (jsGet values p.key) p.default)))).data
      from rfl]
    rw [wordsOf_space_cons, joinSpace_data, wordsOf_charJoinSp _ hwordmem, List.map_map]
    rw [show (String.data ∘ fun p : ParamDef =>
        p.key ++ "=" ++ jsonStringify (jsCoalesce (jsGet values p.key) p.default))
      = (fun p : ParamDef =>
        (p.key ++ "=" ++ jsonStringify (jsCoalesce (jsGet values p.key) p.default)).data)
      from rfl]
    rw [foldl_parse_words _ _ []
      (forall₂_parseKV values blk.defn.params
        (fun p hp => ⟨(hkeys p hp).1, fun c hc => ((hkeys p hp).2 c hc).2.1⟩))
      (by
        rw [List.map_map]
        exact hnodup)
      (by intro p' _ q hq; simp at hq)]
    simp
  show (if (0 : Int) < 0 then none
    else (tokenInfosAux (tokenize (saveTokenText blk values).data) 0)[(0 : Int).toNat]?) = _
  rw [if_neg (by decide), htok]
  rw [show tokenInfosAux [Chunk.token blk.defn.id.data
      (' ' :: (joinSpace (blk.defn.params.map (fun p =>
        p.key ++ "=" ++ jsonStringify (jsCoalesce (jsGet values p.key) p.default)))).data)
      ('[' :: '[' :: 'B' :: 'l' :: 'o' :: 'c' :: 'k' :: ':' ::
        (blk.defn.id.data ++
          (' ' :: (joinSpace (blk.defn.params.map (fun p =>
            p.key ++ "=" ++ jsonStringify (jsCoalesce (jsGet values p.key) p.default)))).data)
          ++ [']', ']']))] 0
    = [(0, 0 + ('[' :: '[' :: 'B' :: 'l' :: 'o' :: 'c' :: 'k' :: ':' ::
        (blk.defn.id.data ++
          (' ' :: (joinSpace (blk.defn.params.map (fun p =>
            p.key ++ "=" ++ jsonStringify (jsCoalesce (jsGet values p.key) p.default)))).data)
          ++ [']', ']'])).length,
        (⟨blk.defn.id.data⟩ : String),
        parseParams ⟨' ' :: (joinSpace (blk.defn.params.map (fun p =>
          p.key ++ "=" ++ jsonStringify (jsCoalesce (jsGet values p.key) p.default)))).data⟩)]
    from rfl]
  rw [hparse]
  rw [show ((⟨blk.defn.id.data⟩ : String)) = blk.defn.id from rfl]
  rw [hm]
  simp

/-! ## Properties of `moveSegment` -/

theorem moveSegment_spec (segs : List Seg) (segId : String) (index : Nat)
    (fromIdx : Nat) (seg : Seg)
    (hf : segs.findIdx? (fun s => s.segId = segId) = some fromIdx)
    (hget : segs[fromIdx]? = some seg)
    (hidx : index ≤ segs.length) :
    moveSegment segs segId index
      = (segs.eraseIdx fromIdx).insertIdx
          (if fromIdx < index then index - 1 else index) seg := by
  have hlt : fromIdx < segs.length := (List.getElem?_eq_some_iff.mp hget).1
  unfold moveSegment
  simp only [hf, hget]
  have hlen : (segs.eraseIdx fromIdx).length = segs.length - 1 :=
    List.length_eraseIdx_of_lt hlt
  have hle : (if fromIdx < index then index - 1 else index)
      ≤ (segs.eraseIdx fromIdx).length := by
    split <;> omega
  rw [Nat.min_eq_left hle]

theorem moveSegment_unknown (segs : List Seg) (segId : String) (index : Nat)
    (h : ∀ s ∈ segs, s.segId ≠ segId) :
    moveSegment segs segId index = segs := by
  unfold moveSegment
  have hf : segs.findIdx? (fun s => s.segId = segId) = none := by
    rw [List.findIdx?_eq_none_iff]
    intro s hs
    simp [h s hs]
  rw [hf]

theorem parseKV_word_gen (k : String) (w : List Char)
    (hk : k.data ≠ []) (hkeq : ∀ c ∈ k.data, c ≠ '=') :
    parseKV (k.data ++ '=' :: w)
      = some (k, match jsonParse ⟨w⟩ with | some j => j | none => JVal.jstr ⟨w⟩) := by
  unfold parseKV
  have hnone : k.data.findIdx? (fun c => c = '=') = none := by
    rw [List.findIdx?_eq_none_iff]
    intro x hx
    simp [hkeq x hx]
  have hfind : (k.data ++ '=' :: w).findIdx? (fun c => c = '=') = some k.data.length := by
    rw [List.findIdx?_append, hnone, List.findIdx?_cons]
    simp
  rw [hfind]
  have hlen : k.data.length > 0 := List.length_pos.mpr hk
  show (if k.data.length > 0 then
      some ((⟨(k.data ++ '=' :: w).take k.data.length⟩ : String),
        match jsonParse ⟨(k.data ++ '=' :: w).drop (k.data.length + 1)⟩ with
        | some j => j
        | none => JVal.jstr ⟨(k.data ++ '=' :: w).drop (k.data.length + 1)⟩)
    else none) = _
  rw [if_pos hlen]
  have htake : (k.data ++ '=' :: w).take k.data.length = k.data := List.take_left _ _
  have hdrop : (k.data ++ '=' :: w).drop (k.data.length + 1) = w := by
    rw [show (k.data ++ '=' :: w : List Char) = (k.data ++ ['=']) ++ w from by simp]
    exact List.drop_left' (by simp)
  rw [htake, hdrop]

theorem forall₂_parseKV_pairs (l : List (String × JVal))
    (hl : ∀ q ∈ l, q.1.data ≠ [] ∧ ∀ c ∈ q.1.data, c ≠ '=') :
    List.Forall₂ (fun w q => parseKV w = some q)
      (l.map (fun q => q.1.data ++ '=' :: (jsonStringify q.2).data)) l := by
  induction l with
  | nil => exact List.Forall₂.nil
  | cons q rest ih =>
    simp only [List.map_cons]
    refine List.Forall₂.cons ?_ (ih (fun q' hq' => hl q' (by simp [hq'])))
    have := parseKV_word_gen q.1 (jsonStringify q.2).data (hl q (by simp)).1
      (fun c hc => (hl q (by simp)).2 c hc)
    rw [this]
    rw [show (⟨(jsonStringify q.2).data⟩ : String) = jsonStringify q.2 from rfl,
      jsonParse_jsonStringify]

/-! ## The specification's claims -/

/-- A concrete project snapshot for the concrete instances below. -/
def sampleProject : Project :=
  ⟨[("src/Main.tsx", "export default 0;")], "Main", 1920, 1080, 30, 150⟩

/-- A concrete block with one text parameter. -/
def titleBlock : Block :=
  ⟨⟨"b1", "Title", [⟨"title", "Title", PType.text, JVal.jstr "x", none⟩], some 210⟩,
    sampleProject⟩

/-- C5: per-key best-effort parameter decoding — in a raw parameter
text of whitespace-separated `key=value` words, a word whose value part
fails JSON-literal decoding falls back to the raw substring as a string
value for that key only, every other word decodes normally and
independently, and parsing always returns a record (never aborts). -/
theorem parseParams_best_effort (ps1 ps2 : List (String × JVal)) (k : String)
    (bad : List Char)
    (hks : ∀ q ∈ ps1 ++ ps2, q.1.data ≠ [] ∧ ∀ c ∈ q.1.data, isJsWs c = false ∧ c ≠ '=')
    (hvs : ∀ q ∈ ps1 ++ ps2, ∀ c ∈ (jsonStringify q.2).data, isJsWs c = false)
    (hk : k.data ≠ []) (hkc : ∀ c ∈ k.data, isJsWs c = false ∧ c ≠ '=')
    (hbadc : ∀ c ∈ bad, isJsWs c = false)
    (hfail : jsonParse ⟨bad⟩ = none)
    (hnodup : (ps1.map Prod.fst ++ k :: ps2.map Prod.fst).Nodup) :
    parseParams ⟨charJoinSp (ps1.map (fun q => q.1.data ++ '=' :: (jsonStringify q.2).data)
        ++ (k.data ++ '=' :: bad)
          :: ps2.map (fun q => q.1.data ++ '=' :: (jsonStringify q.2).data))⟩
      = ps1 ++ (k, JVal.jstr ⟨bad⟩) :: ps2 := by
  have hwords : ∀ w ∈ ps1.map (fun q => q.1.data ++ '=' :: (jsonStringify q.2).data)
      ++ (k.data ++ '=' :: bad)
        :: ps2.map (fun q => q.1.data ++ '=' :: (jsonStringify q.2).data),
      w ≠ [] ∧ ∀ c ∈ w, isJsWs c = false := by
    intro w hw
    have hword : ∀ q : String × JVal, q ∈ ps1 ++ ps2 →
        (q.1.data ++ '=' :: (jsonStringify q.2).data ≠ [] ∧
          ∀ c ∈ q.1.data ++ '=' :: (jsonStringify q.2).data, isJsWs c = false) := by
      intro q hq
      refine ⟨by simp [(hks q hq).1], ?_⟩
      intro c hc
      rcases List.mem_append.mp hc with h | h
      · exact ((hks q hq).2 c h).1
      · rcases List.mem_cons.mp h with h | h
        · subst h
          decide
        · exact hvs q hq c h
    rcases List.mem_append.mp hw with h | h
    · obtain ⟨q, hq, hqe⟩ := List.mem_map.mp h
      subst hqe
      exact hword q (List.mem_append_left _ hq)
    · rcases List.mem_cons.mp h with h | h
      · subst h
        refine ⟨by simp [hk], ?_⟩
        intro c hc
        rcases List.mem_append.mp hc with h | h
        · exact (hkc c h).1
        · rcases List.mem_cons.mp h with h | h
          · subst h
            decide
          · exact hbadc c h
      · obtain ⟨q, hq, hqe⟩ := List.mem_map.mp h
        subst hqe
        exact hword q (List.mem_append_right _ hq)
  have hmid : parseKV (k.data ++ '=' :: bad) = some (k, JVal.jstr ⟨bad⟩) := by
    rw [parseKV_word_gen k bad hk (fun c hc => (hkc c hc).2)]
    rw [hfail]
  have hfa : List.Forall₂ (fun w p => parseKV w = some p)
      (ps1.map (fun q => q.1.data ++ '=' :: (jsonStringify q.2).data)
        ++ (k.data ++ '=' :: bad)
          :: ps2.map (fun q => q.1.data ++ '=' :: (jsonStringify q.2).data))
      (ps1 ++ (k, JVal.jstr ⟨bad⟩) :: ps2) := by
    refine List.rel_append (forall₂_parseKV_pairs ps1 ?_)
      (List.Forall₂.cons hmid (forall₂_parseKV_pairs ps2 ?_))
    · intro q hq
      exact ⟨(hks q (List.mem_append_left _ hq)).1,
        fun c hc => ((hks q (List.mem_append_left _ hq)).2 c hc).2⟩
    · intro q hq
      exact ⟨(hks q (List.mem_append_right _ hq)).1,
        fun c hc => ((hks q (List.mem_append_right _ hq)).2 c hc).2⟩
  unfold parseParams
  rw [show ((⟨charJoinSp (ps1.map (fun q => q.1.data ++ '=' :: (jsonStringify q.2).data)
      ++ (k.data ++ '=' :: bad)
        :: ps2.map (fun q => q.1.data ++ '=' :: (jsonStringify q.2).data))⟩ : String)).data
    = charJoinSp (ps1.map (fun q => q.1.data ++ '=' :: (jsonStringify q.2).data)
      ++ (k.data ++ '=' :: bad)
        :: ps2.map (fun q => q.1.data ++ '=' :: (jsonStringify q.2).data)) from rfl]
  rw [wordsOf_charJoinSp _ hwords]
  rw [foldl_parse_words _ _ [] hfa
    (by simpa only [List.map_append, List.map_cons] using hnodup)
    (by intro p hp q hq; simp at hq)]
  simp

/-- Witness for C5: of `x=3 t=oops y=true`, the word `t=oops` fails
JSON decoding and falls back to the raw string `"oops"`, while `x` and
`y` decode normally. -/
theorem parseParams_best_effort_witness :
    jsonParse ⟨"oops".data⟩ = none
    ∧ parseParams ⟨charJoinSp ([("x", JVal.jnum 3)].map
          (fun q => q.1.data ++ '=' :: (jsonStringify q.2).data)
        ++ (("t" : String).data ++ '=' :: "oops".data)
          :: [("y", JVal.jbool true)].map
            (fun q => q.1.data ++ '=' :: (jsonStringify q.2).data))⟩
      = [("x", JVal.jnum 3), ("t", JVal.jstr "oops"), ("y", JVal.jbool true)]
    ∧ parseParams "x=3 t=oops y=true"
      = [("x", JVal.jnum 3), ("t", JVal.jstr "oops"), ("y", JVal.jbool true)] :=
  ⟨by decide,
    (parseParams_best_effort [("x", JVal.jnum 3)] [("y", JVal.jbool true)] "t"
      "oops".data (by decide) (by decide) (by decide) (by decide) (by decide)
      (by decide) (by decide)).trans (by decide),
    by decide⟩

/-- C8 (amended): explain-template rendering — when the `explain`
template is the nonempty string `pre ++ "{value}" ++ post` whose first
`{value}` occurrence starts at `pre`, and the JSON rendering of the
parameter's effective value (`effValue`: the usage's non-null explicit
value when present, else the fallback defaults) contains no `$`, the
rendered line is the template with that first occurrence replaced by
the JSON rendering.  The counterexample theorem shows the claim fails
without the `$` proviso, since ECMAScript `replace` treats `$&` and its
kin in the replacement string as substitution patterns. -/
theorem explainLine_renders_template (defParam : ParamDef) (bparams : List UsedParam)
    (pre post : List Char)
    (hex : defParam.explain = some ⟨pre ++ "{value}".data ++ post⟩)
    (hfirst : ∀ i, i < pre.length →
      ¬ "{value}".data <+: (pre ++ "{value}".data ++ post).drop i)
    (hdollar : '$' ∉ (jsonStringify (effValue defParam bparams)).data) :
    explainLine defParam bparams
      = ⟨pre ++ (jsonStringify (effValue defParam bparams)).data ++ post⟩ := by
  have hne : (⟨pre ++ "{value}".data ++ post⟩ : String) ≠ "" := by
    intro h
    have := congrArg String.data h
    simp at this
  unfold explainLine
  simp only [hex]
  rw [if_neg hne]
  unfold jsReplaceFirst
  rw [show (⟨pre ++ "{value}".data ++ post⟩ : String).data
    = pre ++ "{value}".data ++ post from rfl]
  rw [splitAtFirst_spec "{value}".data (by decide) pre post hfirst]
  show (⟨pre ++ getSubstitution "{value}".data pre post
      (jsonStringify (effValue defParam bparams)).data ++ post⟩ : String) = _
  rw [getSubstitution_no_dollar "{value}".data pre post _ hdollar]

/-- C8 fails as stated: a string parameter value containing `$&` is not
substituted literally — ECMAScript `replace` expands `$&` to the
matched pattern, so the placeholder text reappears in the output. -/
theorem explainLine_dollar_counterexample :
    explainLine ⟨"speed", "Speed", PType.text, JVal.jstr "1", some "set speed to {value}"⟩
        [⟨"speed", JVal.jstr "1", some (JVal.jstr "$&")⟩]
      = "set speed to \"{value}\""
    ∧ jsonStringify (JVal.jstr "$&") = "\"$&\""
    ∧ explainLine ⟨"speed", "Speed", PType.text, JVal.jstr "1", some "set speed to {value}"⟩
        [⟨"speed", JVal.jstr "1", some (JVal.jstr "$&")⟩]
      ≠ "set speed to \"$&\"" := by
  refine ⟨?_, by decide, ?_⟩ <;> decide

/-- Witness for C8 at the specification's own example: a param
`{key: "speed", default: 1, explain: "set the animation speed to "
++ "{value}"}` with effective value `2` renders
`"set the animation speed to 2"`. -/
theorem explainLine_renders_template_witness :
    (⟨"speed", "Speed", PType.number, JVal.jnum 1,
        some "set the animation speed to {value}"⟩ : ParamDef).explain
      = some ⟨"set the animation speed to ".data ++ "{value}".data ++ []⟩
    ∧ ('$' ∉ (jsonStringify (effValue
        ⟨"speed", "Speed", PType.number, JVal.jnum 1,
          some "set the animation speed to {value}"⟩
        [⟨"speed", JVal.jnum 1, some (JVal.jnum 2)⟩])).data)
    ∧ explainLine
        ⟨"speed", "Speed", PType.number, JVal.jnum 1,
          some "set the animation speed to {value}"⟩
        [⟨"speed", JVal.jnum 1, some (JVal.jnum 2)⟩]
      = "set the animation speed to 2" :=
  ⟨by decide, by decide,
    (explainLine_renders_template
      ⟨"speed", "Speed", PType.number, JVal.jnum 1,
        some "set the animation speed to {value}"⟩
      [⟨"speed", JVal.jnum 1, some (JVal.jnum 2)⟩]
      "set the animation speed to ".data [] (by decide) (by decide) (by decide)).trans
      (by decide)⟩

/-- C1 (amended): token round-trip law — `parse(serialize(id, values))`
recovers the block id and exactly the effective parameter record,
provided the id is a nonempty run of token-id characters, the keys are
nonempty, distinct and free of whitespace, `=` and `]`, and the JSON
rendering of each effective value contains no whitespace and no `]`.
The counterexample theorem shows the law fails as originally stated
once a JSON rendering contains whitespace (the parser splits rawParams
on whitespace before decoding), which reaches beyond the spec's sole
unquoted-string caveat. -/
theorem token_round_trip (blk : Block) (values : List (String × JVal))
    (hid : blk.defn.id.data ≠ [])
    (hidc : ∀ c ∈ blk.defn.id.data, isTokenIdChar c = true)
    (hkeys : ∀ p ∈ blk.defn.params, p.key.data ≠ [] ∧
      ∀ c ∈ p.key.data, isJsWs c = false ∧ c ≠ '=' ∧ c ≠ ']')
    (hvals : ∀ p ∈ blk.defn.params,
      ∀ c ∈ (jsonStringify (jsCoalesce (jsGet values p.key) p.default)).data,
        isJsWs c = false ∧ c ≠ ']')
    (hnodup : (blk.defn.params.map ParamDef.key).Nodup) :
    findTokenByIndex (saveTokenText blk values) 0
      = some (0, (saveTokenText blk values).data.length, blk.defn.id,
          blk.defn.params.map (fun p => (p.key, jsCoalesce (jsGet values p.key) p.default))) :=
  findTokenByIndex_saveTokenText blk values hid hidc hkeys hvals hnodup

/-- Witness for C1 on a concrete whitespace-free value. -/
theorem token_round_trip_witness :
    (∀ c ∈ titleBlock.defn.id.data, isTokenIdChar c = true)
    ∧ saveTokenText titleBlock [("title", JVal.jstr "hi")] = "[[Block:b1 title=\"hi\"]]"
    ∧ findTokenByIndex (saveTokenText titleBlock [("title", JVal.jstr "hi")]) 0
      = some (0, 23, "b1", [("title", JVal.jstr "hi")]) :=
  ⟨by decide, by decide,
    (token_round_trip titleBlock [("title", JVal.jstr "hi")]
      (by decide) (by decide) (by decide) (by decide) (by decide)).trans (by decide)⟩

/-- C1 fails as originally stated: a JSON-literal-representable string
value containing a space survives serialization, but the parser splits
the raw parameter text on whitespace before JSON decoding, so the value
comes back as the truncated raw word `"\"hello"` instead of
`"hello world"`. -/
theorem token_round_trip_counterexample :
    saveTokenText titleBlock [("title", JVal.jstr "hello world")]
      = "[[Block:b1 title=\"hello world\"]]"
    ∧ findTokenByIndex (saveTokenText titleBlock [("title", JVal.jstr "hello world")]) 0
      = some (0, 32, "b1", [("title", JVal.jstr "\"hello")])
    ∧ JVal.jstr "\"hello" ≠ JVal.jstr "hello world" := by
  refine ⟨by decide, ?_, by decide⟩
  have hm : matchTokenAt ("[[Block:b1 title=\"hello world\"]]" : String).data
      = some ("b1".data, " title=\"hello world\"".data,
          ("[[Block:b1 title=\"hello world\"]]" : String).data, []) := by decide
  have ht := tokenize_of_match _ _ _ _ hm
  rw [show saveTokenText titleBlock [("title", JVal.jstr "hello world")]
    = "[[Block:b1 title=\"hello world\"]]" from by decide]
  unfold findTokenByIndex
  rw [if_neg (by decide), ht]
  decide

/-- A segment list satisfying the segment-model invariant: Text, Block,
Text. -/
def segsABC : List Seg :=
  [Seg.text "t1" "a", Seg.block "b1" "blk" [] none none, Seg.text "t2" "c"]

/-- C2: the alternation invariant does not survive `insertBlock` —
dropping a block at index 1 of the invariant-satisfying list
`[Text, Block, Text]` yields a list with two adjacent Text segments,
because the trailing empty Text is spliced at `ensureAfter + 1`, one
slot past where the code's own comment requires it. -/
theorem insertBlock_breaks_alternation :
    segInvariant segsABC = true
    ∧ insertBlock segsABC 1 "blk" [] "nb" "x1" "x2"
      = [Seg.text "t1" "a", Seg.block "nb" "blk" [] none none,
          Seg.block "b1" "blk" [] none none, Seg.text "x2" "", Seg.text "t2" "c"]
    ∧ hasAdjacentTexts (insertBlock segsABC 1 "blk" [] "nb" "x1" "x2") = true
    ∧ segInvariant (insertBlock segsABC 1 "blk" [] "nb" "x1" "x2") = false := by
  refine ⟨by decide, by decide, by decide, by decide⟩

/-- C3: the flanking-text contract holds on the spec's example
(inserting at index 0 into `[Text "hello"]`), but fails in general —
inserting at index 1 into `[Text, Block, Text]` leaves the new Block
segment immediately followed by the pre-existing Block, not by a Text
segment: the trailing empty Text lands one slot too far right. -/
theorem insertBlock_flanking_counterexample :
    insertBlock [Seg.text "t0" "hello"] 0 "blk_b" [] "nb" "x1" "x2"
      = [Seg.text "x1" "", Seg.block "nb" "blk_b" [] none none, Seg.text "t0" "hello"]
    ∧ (insertBlock segsABC 1 "blk" [] "nb" "x1" "x2")[1]?
      = some (Seg.block "nb" "blk" [] none none)
    ∧ ((insertBlock segsABC 1 "blk" [] "nb" "x1" "x2")[2]?.map Seg.isText) = some false := by
  refine ⟨by decide, by decide, by decide⟩

/-- C4: forward-sync reconstruction is the identity — re-deriving the
canonical string from the rendered tree (text nodes contribute their
entity-decoded text, token widgets the decoded `data-token` attribute,
never the rendered label) gives back exactly the input string, for
every block list and every prompt. -/
theorem renderPromptDOM_roundtrip (blocks : List Block) (text : String) :
    (⟨textFromEditor (renderPromptDOM blocks text)⟩ : String) = text := by
  unfold renderPromptDOM
  rw [textFromEditor_renderChunks blocks _ 0, concatOrig_tokenize]

/-- C6: reorder index arithmetic — when the list holds a segment with
the given id at `fromIdx` and the target index is in range, the move
removes the segment and splices it back at `index - 1` when
`fromIdx < index` (the list shrank in front of the target) and at
`index` otherwise. -/
theorem moveSegment_reorder (segs : List Seg) (segId : String) (index : Nat)
    (fromIdx : Nat) (seg : Seg)
    (hf : segs.findIdx? (fun s => s.segId = segId) = some fromIdx)
    (hget : segs[fromIdx]? = some seg)
    (hidx : index ≤ segs.length) :
    moveSegment segs segId index
      = (segs.eraseIdx fromIdx).insertIdx
          (if fromIdx < index then index - 1 else index) seg :=
  moveSegment_spec segs segId index fromIdx seg hf hget hidx

/-- Witness for C6 at the spec's example: moving the element at
position 3 of a 5-element list to target index 1 places it immediately
before the element originally at index 1. -/
theorem moveSegment_reorder_witness :
    ([Seg.text "a" "", Seg.text "b" "", Seg.text "c" "", Seg.text "d" "",
        Seg.text "e" ""].findIdx? (fun s => s.segId = "d") = some 3)
    ∧ moveSegment [Seg.text "a" "", Seg.text "b" "", Seg.text "c" "",
        Seg.text "d" "", Seg.text "e" ""] "d" 1
      = [Seg.text "a" "", Seg.text "d" "", Seg.text "b" "", Seg.text "c" "",
          Seg.text "e" ""] :=
  ⟨by decide,
    (moveSegment_reorder [Seg.text "a" "", Seg.text "b" "", Seg.text "c" "",
        Seg.text "d" "", Seg.text "e" ""] "d" 1 3 (Seg.text "d" "")
      (by decide) (by decide) (by decide)).trans (by decide)⟩

/-- C7: context flattening silently skips unresolvable references — a
Block segment (or token) whose `blockId` resolves to no definition
contributes no usage record and raises no error, and the resolved
records keep their input order (both extractors equal an
order-preserving `filterMap` of per-item resolution). -/
theorem extract_skips_unresolved (blocks : List Block) (pre post : List Seg)
    (sid bid : String) (values : List (String × JVal)) (cu cd : Option String)
    (text : String)
    (hmiss : blocks.find? (fun b => b.defn.id = bid) = none) :
    resolveSeg blocks (Seg.block sid bid values cu cd) = none
    ∧ (∀ prm orig, resolveChunk blocks (Chunk.token bid.data prm orig) = none)
    ∧ extractBlocksFromSegments (pre ++ Seg.block sid bid values cu cd :: post) blocks
      = extractBlocksFromSegments pre blocks ++ extractBlocksFromSegments post blocks
    ∧ extractBlocksFromSegments (pre ++ post) blocks
      = (pre ++ post).filterMap (resolveSeg blocks)
    ∧ extractBlocksFromPrompt text blocks
      = (tokenize text.data).filterMap (resolveChunk blocks) := by
  refine ⟨?_, ?_, ?_, extractBlocksFromSegments_eq_filterMap _ _,
    extractBlocksFromPrompt_eq_filterMap _ _⟩
  · simp [resolveSeg, hmiss]
  · intro prm orig
    simp only [resolveChunk]
    rw [show (⟨bid.data⟩ : String) = bid from rfl, hmiss]
    rfl
  · rw [extractBlocksFromSegments_eq_filterMap, extractBlocksFromSegments_eq_filterMap,
      extractBlocksFromSegments_eq_filterMap, List.filterMap_append, List.filterMap_cons]
    simp [resolveSeg, hmiss]

/-- Witness for C7: a block reference to the absent id `ghost` between
a text segment and a resolvable block reference. -/
theorem extract_skips_unresolved_witness :
    ([titleBlock].find? (fun b => b.defn.id = "ghost") = none)
    ∧ (resolveSeg [titleBlock] (Seg.block "s" "ghost" [] none none) = none
      ∧ (∀ prm orig, resolveChunk [titleBlock]
          (Chunk.token ("ghost" : String).data prm orig) = none)
      ∧ extractBlocksFromSegments
          ([Seg.text "p" "x"] ++ Seg.block "s" "ghost" [] none none
            :: [Seg.block "q" "b1" [] none none]) [titleBlock]
        = extractBlocksFromSegments [Seg.text "p" "x"] [titleBlock]
          ++ extractBlocksFromSegments [Seg.block "q" "b1" [] none none] [titleBlock]
      ∧ extractBlocksFromSegments
          ([Seg.text "p" "x"] ++ [Seg.block "q" "b1" [] none none]) [titleBlock]
        = ([Seg.text "p" "x"] ++ [Seg.block "q" "b1" [] none none]).filterMap
            (resolveSeg [titleBlock])
      ∧ extractBlocksFromPrompt "hi" [titleBlock]
        = (tokenize ("hi" : String).data).filterMap (resolveChunk [titleBlock])) :=
  ⟨by decide,
    extract_skips_unresolved [titleBlock] [Seg.text "p" "x"]
      [Seg.block "q" "b1" [] none none] "s" "ghost" [] none none "hi" (by decide)⟩

/-- C9: token-attribute encoding round trip — for every string,
decoding the base64/UTF-8 `data-token` attribute encoding recovers the
string verbatim, so forward sync always reads back the exact original
token substring. -/
theorem encodeAttr_roundtrip (s : String) : decodeAttr (encodeAttr s) = s :=
  decodeAttr_encodeAttr s

/-- C10: moving an unknown segment id is a no-op — when no segment of
the list carries the given id, `moveSegment` returns the list
unchanged, whatever the target index. -/
theorem moveSegment_unknown_noop (segs : List Seg) (segId : String) (index : Nat)
    (h : ∀ s ∈ segs, s.segId ≠ segId) :
    moveSegment segs segId index = segs :=
  moveSegment_unknown segs segId index h

/-- Witness for C10 on a two-segment list and an id it does not
contain. -/
theorem moveSegment_unknown_noop_witness :
    (∀ s ∈ [Seg.text "a" "x", Seg.block "b" "blk" [] none none], s.segId ≠ "zz")
    ∧ moveSegment [Seg.text "a" "x", Seg.block "b" "blk" [] none none] "zz" 5
      = [Seg.text "a" "x", Seg.block "b" "blk" [] none none] :=
  ⟨by decide,
    moveSegment_unknown_noop [Seg.text "a" "x", Seg.block "b" "blk" [] none none]
      "zz" 5 (by decide)⟩

end VisuBlocks
